import Mathlib

/-!
# Verification of the `ue2-docs` crawl engine against its specification

A shallow embedding, in Lean 4, of the core components of the `ue2-docs`
documentation scraper (written in Go):

* `urlutil` — URL normalization (`Normalize`), scope filtering (`Filter`,
  `NewFilter`, `IsAllowed`) and resource classification (`DetectResourceType`),
  together with a faithful model of the fragment of Go's `net/url` parsing and
  serialization that these functions exercise;
* `fetcher` — the retrying fetch loop (`Fetch`/`doFetch`), the exponential
  backoff schedule (`calculateBackoff`), the redirect policy installed in the
  HTTP client (`checkRedirect`), and a second resource classifier;
* `scraper` — the priority frontier (`Queue` over `container/heap`) and the
  visited-URL ledger (`Tracker`).

Machine integers are modelled as `Int`/`Nat`, byte strings as `String`/
`List Char`, Go maps as association/membership lists, and the concurrent
operations (which the Go code serializes under a mutex or via `sync.Map`)
as pure state-passing functions over explicit operation sequences.
-/

namespace fetcher

/-- Fetcher configuration (`fetcher.Config`).  Durations are in nanoseconds
(Go's `time.Duration` unit); `MaxRetries` is a non-negative retry budget. -/
structure Config where
  MaxRetries : Nat
  InitialDelay : Int
  MaxDelay : Int
deriving DecidableEq, Repr

/-- Round `m / 2^k` to the nearest integer, ties to even (`k ≥ 1`): the
IEEE-754 default rounding used by the Go int-to-`float64` conversions. -/
def roundNearestEven (m k : Nat) : Nat :=
  let q := m / 2 ^ k
  let r := m % 2 ^ k
  let half := 2 ^ (k - 1)
  if half < r then q + 1
  else if r < half then q
  else if q % 2 = 0 then q else q + 1

/-- The exact value of the `float64` nearest to a natural number (round to
nearest, ties to even): exact below `2^53`; above, the bits beyond the
53-bit significand are rounded away.  Every `int64` magnitude is far below
the `float64` overflow threshold, so the Go conversion `float64(n)` is always this
finite value. -/
def floatOfNat (m : Nat) : Nat :=
  if m < 2 ^ 53 then m
  else roundNearestEven m (m.log2 - 52) * 2 ^ (m.log2 - 52)

/-- The Go conversion `float64(n)` of an `int64` value, as an exact
integer (rounding is symmetric under negation). -/
def floatOfInt (n : Int) : Int :=
  if 0 ≤ n then (floatOfNat n.toNat : Int) else -(floatOfNat (-n).toNat : Int)

/-- The exact value of the `float64` product `x * math.Pow(2, m)` for a
float-representable integer `x`: `math.Pow(2, m)` is exactly `2^m` for
`m ≤ 1023` and `+Inf` beyond, and multiplying a float by a power of two
keeps the significand, so the product is exact unless it leaves the finite
range.  `none` means the product is not a finite float: `±Inf` from
overflow or an infinite `Pow`, or `NaN` from `0 * Inf`. -/
def floatMulPow2 (x : Int) (m : Nat) : Option Int :=
  if 1024 ≤ m then none
  else if -(2 ^ 1024) < x * 2 ^ m ∧ x * 2 ^ m < 2 ^ 1024 then some (x * 2 ^ m)
  else none

/-- `Fetcher.calculateBackoff`: the Go code computes
`delay := float64(InitialDelay) * math.Pow(2, float64(attempt-1))`, converts
with `delayDuration := time.Duration(delay)`, and only afterwards caps:
`if delayDuration > MaxDelay { delayDuration = MaxDelay }`.  The float
product is modelled exactly; the float-to-`int64` conversion is
implementation-defined whenever the value cannot be represented (out of
`int64` range, `±Inf`, `NaN`), so for such attempts the returned duration
is not determined by the Go spec — the cap then compares against an
implementation-dependent value — which `none` records.  `Fetch` only calls
it with `attempt ≥ 1`; `attempt - 1` is the Go `int` subtraction on that
range. -/
def calculateBackoff (config : Config) (attempt : Nat) : Option Int :=
  match floatMulPow2 (floatOfInt config.InitialDelay) (attempt - 1) with
  | none => none
  | some delay =>
    if -(2 ^ 63) ≤ delay ∧ delay ≤ 2 ^ 63 - 1 then
      some (if delay > config.MaxDelay then config.MaxDelay else delay)
    else none

/-- The `CheckRedirect` closure installed by `fetcher.New`: it receives the
list `via` of requests already made and fails once `len(via) >= 10`.
`some msg` models returning an error, `none` models returning `nil`. -/
def checkRedirect (lenVia : Nat) : Option String :=
  if lenVia ≥ 10 then some "too many redirects" else none

/-- The redirect-following loop of Go's `http.Client` around `checkRedirect`:
`redirects j = true` means the response to the `j`-th request (1-indexed) is a
redirect.  `via` counts the requests already made; before following a redirect
the client consults `checkRedirect via`.  Returns the total number of requests
made on success, `none` on a too-many-redirects failure. -/
def followRedirects (redirects : Nat → Bool) (via : Nat) : Option Nat :=
  if redirects via then
    match h : checkRedirect via with
    | some _ => none
    | none => followRedirects redirects (via + 1)
  else
    some via
termination_by 10 - via
decreasing_by
  simp only [checkRedirect] at h
  split at h
  · exact absurd h (by simp)
  · omega

/-- A fetch starts with one initial request (`via = 1`). -/
def fetchRedirects (redirects : Nat → Bool) : Option Nat :=
  followRedirects redirects 1

/-- What the network does on one attempt: either the transport fails before a
response arrives (connection error, request-creation error), or a response
with the given status code arrives whose body read may subsequently fail. -/
inductive AttemptResult where
  | transportFailure
  | response (statusCode : Int) (bodyReadFails : Bool)
deriving DecidableEq, Repr

/-- The cause recorded in the error returned by `Fetcher.doFetch`. -/
inductive Cause where
  | transport
  | bodyRead (statusCode : Int)
  | httpStatus (statusCode : Int)
deriving DecidableEq, Repr

/-- `Fetcher.doFetch` on one attempt: models Go's `(resp *Response, err
error)` return, where `err = nil` exactly on success.  `.ok c` is the
successful 2xx response; `.error (resp, cause)` carries the status code of the
partial `Response` returned alongside the error (`none` models a nil
response).  Errors are produced in source order: transport failure first, then
body-read failure (which still carries the response and its status code), then
the non-2xx status check. -/
def doFetch (a : AttemptResult) : Except (Option Int × Cause) Int :=
  match a with
  | .transportFailure => .error (none, .transport)
  | .response c readFails =>
    if readFails then .error (some c, .bodyRead c)
    else if c < 200 ∨ c ≥ 300 then .error (some c, .httpStatus c)
    else .ok c

/-- Result of `Fetcher.Fetch`: success with the 2xx status code, the immediate
client-error return (`"client error %d: %w"` wrapping the attempt's error), or
retries exhausted (`"failed after %d retries: %w"` wrapping the last error). -/
inductive FetchResult where
  | ok (statusCode : Int)
  | errClient (statusCode : Int) (cause : Cause)
  | errExhausted (retries : Nat) (lastErr : Option Cause)
deriving DecidableEq, Repr

/-- Instrumented trace of one `Fetcher.Fetch` call: its return value, how many
HTTP attempts (`doFetch` calls) were made, and the backoff delays slept. -/
structure FetchTrace where
  result : FetchResult
  attemptsMade : Nat
  delays : List (Option Int)
deriving DecidableEq, Repr

/-- The body of `Fetcher.Fetch`'s retry loop, from iteration `attempt` with
accumulated `lastErr`.  The environment `env` gives the network's behavior on
each attempt.  Cancellation and the rate limiter are not exercised here (the
context is never cancelled and the limiter wait always succeeds). -/
def fetchGo (config : Config) (env : Nat → AttemptResult) (attempt : Nat)
    (lastErr : Option Cause) : FetchTrace :=
  if _h : attempt > config.MaxRetries then
    ⟨.errExhausted config.MaxRetries lastErr, 0, []⟩
  else
    let delays0 : List (Option Int) :=
      if attempt > 0 then [calculateBackoff config attempt] else []
    match doFetch (env attempt) with
    | .ok c => ⟨.ok c, 1, delays0⟩
    | .error (some c, cause) =>
      if 400 ≤ c ∧ c < 500 then ⟨.errClient c cause, 1, delays0⟩
      else
        let t := fetchGo config env (attempt + 1) (some cause)
        ⟨t.result, t.attemptsMade + 1, delays0 ++ t.delays⟩
    | .error (none, cause) =>
      let t := fetchGo config env (attempt + 1) (some cause)
      ⟨t.result, t.attemptsMade + 1, delays0 ++ t.delays⟩
termination_by config.MaxRetries + 1 - attempt
decreasing_by all_goals omega

/-- `Fetcher.Fetch config env`: run the retry loop from attempt 0. -/
def Fetch (config : Config) (env : Nat → AttemptResult) : FetchTrace :=
  fetchGo config env 0 none

/-- An attempt outcome the `Fetch` loop retries: a failing attempt that does
not carry a response with a 4xx status (the code's `resp != nil &&
resp.StatusCode >= 400 && resp.StatusCode < 500` early return). -/
def retryable (a : AttemptResult) : Prop :=
  match a with
  | .transportFailure => True
  | .response c readFails =>
    (readFails = true ∨ c < 200 ∨ c ≥ 300) ∧ ¬(400 ≤ c ∧ c < 500)

instance : DecidablePred retryable := by
  intro a; unfold retryable; cases a <;> infer_instance

/-- The error cause `doFetch` reports for a failing attempt. -/
def causeOf (a : AttemptResult) : Cause :=
  match a with
  | .transportFailure => .transport
  | .response c readFails =>
    if readFails then .bodyRead c else .httpStatus c

end fetcher

namespace urlutil

/-- `urlutil.ResourceType` (`iota`-ordered: Unknown first). -/
inductive ResourceType where
  | unknown
  | html
  | css
  | js
  | image
  | font
  | other
deriving DecidableEq, Repr, Inhabited

/-- `ResourceType.GetWeight`: the scheduling priority weight. -/
def ResourceType.GetWeight : ResourceType → Int
  | .html => 100
  | .css => 75
  | .js => 50
  | .image => 25
  | .font => 20
  | .other => 10
  | .unknown => 5

/-- ASCII lowercasing of one character — the fragment of Go's
`strings.ToLower` exercised by the ASCII URLs modelled here. -/
def lowerChar (c : Char) : Char :=
  if 'A' ≤ c ∧ c ≤ 'Z' then Char.ofNat (c.toNat + 32) else c

/-- `strings.ToLower` on an ASCII character list. -/
def lowerList (s : List Char) : List Char := s.map lowerChar

def isAlphaChar (c : Char) : Bool :=
  decide ('a' ≤ c ∧ c ≤ 'z') || decide ('A' ≤ c ∧ c ≤ 'Z')

def isDigitChar (c : Char) : Bool := decide ('0' ≤ c ∧ c ≤ '9')

/-- A lowercase ASCII letter (the form parsed schemes take). -/
def isLowerAlpha (c : Char) : Bool := decide ('a' ≤ c ∧ c ≤ 'z')

/-- Characters admitted in a hostname by the modelled URL grammar. -/
def isHostnameChar (c : Char) : Bool :=
  isAlphaChar c || isDigitChar c || decide (c = '.') || decide (c = '-')

/-- Characters admitted in a path: unreserved characters and `/`; none of
them is escaped by Go's `net/url` serialization. -/
def isPathChar (c : Char) : Bool :=
  isAlphaChar c || isDigitChar c || decide (c = '.') || decide (c = '-') ||
    decide (c = '_') || decide (c = '~') || decide (c = '/')

/-- Characters admitted in a query: unreserved characters plus `=` and `&`;
none of them is escaped by Go's `net/url` serialization. -/
def isQueryChar (c : Char) : Bool :=
  isAlphaChar c || isDigitChar c || decide (c = '.') || decide (c = '-') ||
    decide (c = '_') || decide (c = '~') || decide (c = '=') || decide (c = '&')

/-- Characters admitted in a fragment (same set as queries). -/
def isFragChar (c : Char) : Bool := isQueryChar c

/-- `strings.Cut`: split at the first occurrence of `sep`, if any. -/
def cutAt (sep : Char) : List Char → Option (List Char × List Char)
  | [] => none
  | c :: cs =>
    if c = sep then some ([], cs)
    else (cutAt sep cs).map fun p => (c :: p.1, p.2)

/-- `strings.TrimSuffix`: remove one occurrence of a trailing suffix. -/
def trimSuffix (s suf : List Char) : List Char :=
  if suf.isSuffixOf s then s.take (s.length - suf.length) else s

/-- A valid hostname in the modelled grammar: nonempty, hostname chars. -/
def validHostname (h : List Char) : Bool :=
  !h.isEmpty && h.all isHostnameChar

/-- A valid `host[:port]` in the modelled grammar: a hostname optionally
followed by a single colon and a nonempty decimal port (Go's
`validOptionalPort` also checks the digits after the final colon). -/
def validHost (h : List Char) : Bool :=
  match cutAt ':' h with
  | none => validHostname h
  | some (hn, port) => validHostname hn && !port.isEmpty && port.all isDigitChar

/-- The components of a parsed absolute URL, mirroring the fields of Go's
`url.URL` that the scraper reads or writes: `Scheme`, `Host`, `Path`,
`RawQuery`, `ForceQuery`, `Fragment`.  As in Go, an empty `fragment` (resp.
empty `rawQuery` with `forceQuery = false`) means the component is absent. -/
structure URLParts where
  scheme : List Char
  host : List Char
  path : List Char
  rawQuery : List Char
  forceQuery : Bool
  fragment : List Char
deriving DecidableEq, Repr, Inhabited

/-- A faithful model of Go's `url.Parse` restricted to the grammar
`scheme "://" host[:port] path ["?" query] ["#" fragment]` over the character
classes above (no userinfo, no percent-escapes, no opaque URLs, no IPv6
hosts).  As in Go: the fragment is split off first at the first `#`, then the
query at the first `?` (`ForceQuery` records a trailing lone `?`), the scheme
is lowercased during parsing, and the authority extends to the first `/`.
Inputs outside the grammar — including every relative URL, which has no
`scheme "://"` — yield `none` (Go's parse error, or an absolute-URL check
failure in the callers modelled here). -/
def parseList (s : List Char) : Option URLParts :=
  let fragCut := cutAt '#' s
  let rest := match fragCut with | none => s | some (b, _) => b
  let frag := match fragCut with | none => [] | some (_, f) => f
  let queryCut := cutAt '?' rest
  let beforeQ := match queryCut with | none => rest | some (b, _) => b
  let q := match queryCut with | none => [] | some (_, qs) => qs
  let fq := match queryCut with | none => false | some (_, qs) => qs.isEmpty
  let schemeRaw := beforeQ.takeWhile isAlphaChar
  match beforeQ.drop schemeRaw.length with
  | ':' :: '/' :: '/' :: rest3 =>
    if schemeRaw.isEmpty then none
    else
      let host := rest3.takeWhile fun c => !(c = '/')
      let path := rest3.drop host.length
      if validHost host && path.all isPathChar && q.all isQueryChar &&
          frag.all isFragChar then
        some ⟨lowerList schemeRaw, host, path, q, fq, frag⟩
      else none
  | _ => none

/-- Go's `url.URL.String` on the subset produced by `parseList`:
`scheme://host path [? query] [# fragment]`. -/
def serializeList (p : URLParts) : List Char :=
  p.scheme ++ [':', '/', '/'] ++ p.host ++ p.path ++
    (if p.forceQuery || !p.rawQuery.isEmpty then '?' :: p.rawQuery else []) ++
    (if p.fragment.isEmpty then [] else '#' :: p.fragment)

/-- The component transformations of `urlutil.Normalize`, in source order:
lowercase scheme and host, strip a default port (`:80` for http, `:443` for
https), clear the query (`RawQuery = ""`, `ForceQuery = false`), and trim one
trailing slash from the path unless the path is exactly `/`. -/
def normalizeParts (p : URLParts) : URLParts :=
  let scheme := lowerList p.scheme
  let host0 := lowerList p.host
  let host :=
    if decide (scheme = "http".toList) && ":80".toList.isSuffixOf host0 then
      trimSuffix host0 ":80".toList
    else if decide (scheme = "https".toList) && ":443".toList.isSuffixOf host0 then
      trimSuffix host0 ":443".toList
    else host0
  let path :=
    if decide (p.path ≠ "/".toList) && "/".toList.isSuffixOf p.path then
      trimSuffix p.path "/".toList
    else p.path
  ⟨scheme, host, path, [], false, p.fragment⟩

/-- `urlutil.Normalize rawURL ""` (no base URL): with an empty base the
relative-resolution branch is skipped, so a relative input fails the
absolute-URL check and a parse failure propagates; otherwise the parsed URL
is transformed by `normalizeParts` and re-serialized by `u.String()`. -/
def Normalize (rawURL : String) : Option String :=
  match parseList rawURL.toList with
  | none => none
  | some u => some (String.mk (serializeList (normalizeParts u)))

/-- Go's `path.Ext`: the suffix of the final slash-separated element starting
at its final dot, scanning backwards and stopping at a `/`. -/
def pathExtRev (acc : List Char) : List Char → List Char
  | [] => []
  | c :: rest =>
    if c = '/' then []
    else if c = '.' then c :: acc
    else pathExtRev (c :: acc) rest

/-- `path.Ext p`: scan `p` from its end. -/
def pathExt (p : List Char) : List Char := pathExtRev [] p.reverse

/-- Go's `path.Split`: split after the final `/` into
(directory-with-trailing-slash, file). -/
def splitLast (s : List Char) : List Char × List Char :=
  let revFile := s.reverse.takeWhile fun c => !(c = '/')
  (s.take (s.length - revFile.length), revFile.reverse)

/-- Go's `path.Dir` (`Clean` of the directory part of `path.Split`),
modelled for already-clean paths — no `.`/`..` segments and no repeated
slashes — which is the shape of the root-URL paths `NewFilter` receives:
`Clean("") = "."`, `Clean("/") = "/"`, and otherwise `Clean` just drops the
trailing slash of the directory part. -/
def pathDir (p : List Char) : List Char :=
  let dir := (splitLast p).1
  if dir.isEmpty then ".".toList
  else if dir = "/".toList then dir
  else dir.dropLast

/-- `urlutil.Filter`: root host (lowercased), the directory containing the
root URL's path, and the lowercased whitelist domains (a `map[string]bool`
modelled as a membership list). -/
structure Filter where
  rootDomain : List Char
  rootPath : List Char
  whitelist : List (List Char)
deriving DecidableEq, Repr

/-- `urlutil.NewFilter`: an unparseable root URL yields a filter that rejects
everything; otherwise the root path is the directory containing the root
URL's path (with `.` replaced by `/`), and the whitelist is lowercased. -/
def NewFilter (rootURL : String) (whitelistDomains : List String) : Filter :=
  match parseList rootURL.toList with
  | none => ⟨[], [], []⟩
  | some u =>
    let rootPath0 := pathDir u.path
    let rootPath := if rootPath0 = ".".toList then "/".toList else rootPath0
    ⟨lowerList u.host, rootPath, whitelistDomains.map fun d => lowerList d.toList⟩

/-- `Filter.IsAllowed`: `none` models the error returns (parse failure, or a
relative URL — both fall outside the modelled absolute-URL grammar).  If the
lowercased host equals the root domain the answer is the root-path prefix
check alone; only other hosts consult the whitelist. -/
def IsAllowed (f : Filter) (rawURL : String) : Option Bool :=
  match parseList rawURL.toList with
  | none => none
  | some u =>
    let domain := lowerList u.host
    if domain = f.rootDomain then some (f.rootPath.isPrefixOf u.path)
    else if f.whitelist.contains domain then some true
    else some false

/-- `strings.Contains`: substring (infix) test. -/
def containsSub (sub s : List Char) : Bool := decide (sub <:+: s)

/-- `strings.Split(ct, ";")[0]`: the part before the first semicolon. -/
def beforeSemicolon (s : List Char) : List Char :=
  match cutAt ';' s with
  | none => s
  | some (b, _) => b

/-- `strings.TrimSpace` for the ASCII space character. -/
def trimSpace (s : List Char) : List Char :=
  ((s.dropWhile fun c => c = ' ').reverse.dropWhile fun c => c = ' ').reverse

/-- The content-type classification shared by both `DetectResourceType`
variants: lowercase the part before any `;`, trim spaces, then match known
substrings in source order.  `none` means no case matched (or no content
type was supplied) and the caller falls back to the URL extension. -/
def detectByContentType (ct0 : List Char) : Option ResourceType :=
  if ct0.isEmpty then none
  else
    let ct := trimSpace (lowerList (beforeSemicolon ct0))
    if containsSub "text/html".toList ct then some .html
    else if containsSub "text/css".toList ct then some .css
    else if containsSub "javascript".toList ct ||
        containsSub "application/javascript".toList ct ||
        containsSub "application/x-javascript".toList ct ||
        containsSub "text/javascript".toList ct then some .js
    else if "image/".toList.isPrefixOf ct then some .image
    else if containsSub "font".toList ct || containsSub "woff".toList ct ||
        containsSub "ttf".toList ct then some .font
    else none

/-- `urlutil.DetectResourceType`: content type first; otherwise parse the URL
(`ResourceOther` on parse failure) and switch on the lowercased extension of
`u.Path`, defaulting an extensionless path to HTML and an unrecognized
extension to Unknown. -/
def DetectResourceType (rawURL contentType : String) : ResourceType :=
  match detectByContentType contentType.toList with
  | some rt => rt
  | none =>
    match parseList rawURL.toList with
    | none => .other
    | some u =>
      let ext := lowerList (pathExt u.path)
      if ext = ".html".toList ∨ ext = ".htm".toList then .html
      else if ext = ".css".toList then .css
      else if ext = ".js".toList ∨ ext = ".mjs".toList then .js
      else if ext = ".png".toList ∨ ext = ".jpg".toList ∨ ext = ".jpeg".toList ∨
          ext = ".gif".toList ∨ ext = ".svg".toList ∨ ext = ".webp".toList ∨
          ext = ".ico".toList ∨ ext = ".bmp".toList then .image
      else if ext = ".woff".toList ∨ ext = ".woff2".toList ∨ ext = ".ttf".toList ∨
          ext = ".otf".toList ∨ ext = ".eot".toList then .font
      else if ext = ".pdf".toList ∨ ext = ".zip".toList ∨ ext = ".tar".toList ∨
          ext = ".gz".toList then .other
      else if ext = [] then .html
      else .unknown

end urlutil

namespace fetcher

/-- `fetcher.ResourceType` (the constant block declaring these values is not
in the excerpt; the type is reconstructed from its uses in
`fetcher.DetectResourceType` and `ResourceType.String`). -/
inductive ResourceType where
  | html
  | css
  | javascript
  | image
  | font
  | other
  | unknown
deriving DecidableEq, Repr, Inhabited

/-- `fetcher.DetectResourceType`: same content-type classification as the
`urlutil` variant, but the extension fallback applies `path.Ext` to the *raw
URL string* (not a parsed path), and its switch has no empty-extension case,
so an extensionless URL falls through to Unknown. -/
def DetectResourceType (url contentType : String) : ResourceType :=
  match urlutil.detectByContentType contentType.toList with
  | some .html => .html
  | some .css => .css
  | some .js => .javascript
  | some .image => .image
  | some .font => .font
  | some .other => .other
  | some .unknown => .unknown
  | none =>
    let ext := urlutil.lowerList (urlutil.pathExt url.toList)
    if ext = ".html".toList ∨ ext = ".htm".toList then .html
    else if ext = ".css".toList then .css
    else if ext = ".js".toList ∨ ext = ".mjs".toList then .javascript
    else if ext = ".png".toList ∨ ext = ".jpg".toList ∨ ext = ".jpeg".toList ∨
        ext = ".gif".toList ∨ ext = ".svg".toList ∨ ext = ".webp".toList ∨
        ext = ".ico".toList ∨ ext = ".bmp".toList then .image
    else if ext = ".woff".toList ∨ ext = ".woff2".toList ∨ ext = ".ttf".toList ∨
        ext = ".otf".toList ∨ ext = ".eot".toList then .font
    else if ext = ".pdf".toList ∨ ext = ".zip".toList ∨ ext = ".tar".toList ∨
        ext = ".gz".toList then .other
    else .unknown

end fetcher

namespace scraper

/-- `scraper.QueueItem`. -/
structure QueueItem where
  URL : String
  /-- The `Type` field (`Type` is a Lean keyword). -/
  Typ : urlutil.ResourceType
deriving DecidableEq, Repr

instance : Inhabited QueueItem := ⟨⟨"", .unknown⟩⟩

/-- `QueueItem.Weight`. -/
def QueueItem.Weight (qi : QueueItem) : Int := qi.Typ.GetWeight

/-- Index read on the backing slice of the priority queue (out-of-range reads
never occur along the verified paths). -/
def pqGet : List QueueItem → Nat → QueueItem
  | [], _ => default
  | x :: _, 0 => x
  | _ :: xs, n + 1 => pqGet xs n

/-- Index write on the backing slice. -/
def pqSet : List QueueItem → Nat → QueueItem → List QueueItem
  | [], _, _ => []
  | _ :: xs, 0, y => y :: xs
  | x :: xs, n + 1, y => x :: pqSet xs n y

/-- `priorityQueue.Swap`. -/
def pqSwap (l : List QueueItem) (i j : Nat) : List QueueItem :=
  pqSet (pqSet l i (pqGet l j)) j (pqGet l i)

/-- `priorityQueue.Less i j`: higher weight means higher priority, so the
max-weight item surfaces in `container/heap`'s min-position. -/
def less (l : List QueueItem) (i j : Nat) : Bool :=
  decide ((pqGet l j).Weight < (pqGet l i).Weight)

/-- `container/heap`'s `up` (sift-up) specialized to `priorityQueue`: while
`j` is not the root and `Less(j, parent j)`, swap and continue at the
parent. -/
def up (l : List QueueItem) (j : Nat) : List QueueItem :=
  if j = 0 then l
  else
    let i := (j - 1) / 2
    if less l j i then up (pqSwap l i j) i else l
termination_by j
decreasing_by omega

/-- `container/heap`'s `down` (sift-down) specialized to `priorityQueue`:
while `i` has a child below `n`, pick the `Less`-er child `j` and swap if
`Less(j, i)`. -/
def down (l : List QueueItem) (i n : Nat) : List QueueItem :=
  if 2 * i + 1 ≥ n then l
  else
    let j :=
      if 2 * i + 2 < n ∧ less l (2 * i + 2) (2 * i + 1) = true then 2 * i + 2
      else 2 * i + 1
    if less l j i then down (pqSwap l i j) j n else l
termination_by n - i
decreasing_by
  split <;> omega

/-- `heap.Push`: append, then sift up from the last index. -/
def heapPush (l : List QueueItem) (x : QueueItem) : List QueueItem :=
  up (l ++ [x]) l.length

/-- `heap.Pop` plus `priorityQueue.Pop`: swap the root with the last element,
sift down over the first `n - 1` positions, then detach the last element. -/
def heapPop (l : List QueueItem) : QueueItem × List QueueItem :=
  let n := l.length - 1
  let l2 := down (pqSwap l 0 n) 0 n
  (pqGet l2 n, l2.take n)

/-- `scraper.Queue`: the heap-ordered backing slice and the permanent
admission (`seen`) set, modelled as a membership list. -/
structure Queue where
  pq : List QueueItem
  seen : List String
deriving DecidableEq, Repr

/-- `scraper.NewQueue`. -/
def NewQueue : Queue := ⟨[], []⟩

/-- `Queue.Add`: false and unchanged if the URL was ever seen; otherwise mark
seen, push onto the heap, and return true. -/
def Queue.Add (q : Queue) (url : String) (resourceType : urlutil.ResourceType) :
    Queue × Bool :=
  if url ∈ q.seen then (q, false)
  else ({ pq := heapPush q.pq ⟨url, resourceType⟩, seen := url :: q.seen }, true)

/-- `Queue.Pop`: `(unchanged, none)` on an empty heap, otherwise remove and
return the root. -/
def Queue.Pop (q : Queue) : Queue × Option QueueItem :=
  if q.pq.length = 0 then (q, none)
  else
    let p := heapPop q.pq
    ({ q with pq := p.2 }, some p.1)

/-- One operation against a shared `Queue`; an interleaving of concurrent
calls is a sequence of these (each runs under the queue's mutex). -/
inductive QOp where
  | add (url : String) (resourceType : urlutil.ResourceType)
  | pop
deriving DecidableEq, Repr

/-- Apply one operation, keeping only the state. -/
def applyOp (q : Queue) : QOp → Queue
  | .add url rt => (q.Add url rt).1
  | .pop => (q.Pop).1

/-- Run a sequence of queue operations. -/
def runOps (q : Queue) : List QOp → Queue
  | [] => q
  | op :: rest => runOps (applyOp q op) rest

/-- How many `Add` calls for the URL `u` in the sequence return `true`. -/
def addTrueCount (q : Queue) (ops : List QOp) (u : String) : Nat :=
  match ops with
  | [] => 0
  | .add url rt :: rest =>
    (if url = u ∧ (q.Add url rt).2 = true then 1 else 0) +
      addTrueCount (q.Add url rt).1 rest u
  | .pop :: rest => addTrueCount (q.Pop).1 rest u

/-- Whether the sequence contains an `Add` for the URL `u`. -/
def hasAddFor (u : String) (ops : List QOp) : Bool :=
  ops.any fun op =>
    match op with
    | .add url _ => decide (url = u)
    | .pop => false

/-- Repeatedly call `Queue.Pop` until it reports `found = false`, collecting
the items in pop order (the heap shrinks by one per pop, so `q.pq.length`
rounds always suffice). -/
def qPopAllGo : Nat → Queue → List QueueItem
  | 0, _ => []
  | fuel + 1, q =>
    match q.Pop with
    | (_, none) => []
    | (q', some item) => item :: qPopAllGo fuel q'

/-- Pop everything out of a queue. -/
def qPopAll (q : Queue) : List QueueItem := qPopAllGo q.pq.length q

/-- `scraper.Tracker`: the visited `sync.Map` as an association list plus the
atomic distinct-URL counter. -/
structure Tracker where
  visited : List (String × Int)
  count : Int
deriving DecidableEq, Repr

/-- `scraper.NewTracker`. -/
def NewTracker : Tracker := ⟨[], 0⟩

/-- `Tracker.MarkVisited`: `sync.Map.Swap` stores the new status uncondition-
ally; the counter increments only when the key was not previously present. -/
def Tracker.MarkVisited (t : Tracker) (url : String) (statusCode : Int) :
    Tracker :=
  match t.visited.lookup url with
  | some _ =>
    { t with visited := t.visited.map fun p =>
        if p.1 = url then (url, statusCode) else p }
  | none => ⟨(url, statusCode) :: t.visited, t.count + 1⟩

/-- `Tracker.IsVisited`. -/
def Tracker.IsVisited (t : Tracker) (url : String) : Bool :=
  (t.visited.lookup url).isSome

/-- `Tracker.GetStatus`: `(statusCode, true)` if visited, `(0, false)`
otherwise. -/
def Tracker.GetStatus (t : Tracker) (url : String) : Int × Bool :=
  match t.visited.lookup url with
  | none => (0, false)
  | some v => (v, true)

/-- `Tracker.VisitedCount`. -/
def Tracker.VisitedCount (t : Tracker) : Int := t.count

/-- Run a sequence of `MarkVisited` calls. -/
def runMarks (t : Tracker) : List (String × Int) → Tracker
  | [] => t
  | (url, st) :: rest => runMarks (t.MarkVisited url st) rest

/-- The status of the most recent `MarkVisited` call for `u` in the call
sequence `ms` — stated from the specification's words, for comparison with
the `Tracker` operations. -/
def specLastStatus (ms : List (String × Int)) (u : String) : Option Int :=
  (ms.reverse.find? fun m => decide (m.1 = u)).map Prod.snd

/-- The binary max-heap invariant on the first `n` positions of the backing
slice: every non-root position weighs at most its parent `(j-1)/2`. -/
def IsHeapN (l : List QueueItem) (n : Nat) : Prop :=
  ∀ j, 0 < j → j < n → (pqGet l j).Weight ≤ (pqGet l ((j - 1) / 2)).Weight

/-- The heap invariant on the whole backing slice. -/
def IsHeap (l : List QueueItem) : Prop := IsHeapN l l.length

/-- Run a sequence of `Add` calls (a crawl phase with no interleaved pops). -/
def runAdds (q : Queue) : List (String × urlutil.ResourceType) → Queue
  | [] => q
  | (url, rt) :: rest => runAdds (q.Add url rt).1 rest

end scraper

/-! ### End of definitions; theorems follow. -/

namespace fetcher

/-! ## Supporting lemmas for the fetcher theorems -/

/-- The `CheckRedirect` closure permits a request exactly when at most 9
requests have been made so far. -/
theorem checkRedirect_none_iff (lenVia : Nat) :
    checkRedirect lenVia = none ↔ lenVia ≤ 9 := by
  unfold checkRedirect
  split <;> simp <;> omega

/-- Following a chain of exactly `r` redirects succeeds with `r + 1` total
requests when at most 9 redirect approvals are needed. -/
theorem followRedirects_success (redirects : Nat → Bool) (r : Nat)
    (hpre : ∀ j, 1 ≤ j → j ≤ r → redirects j = true)
    (hfin : redirects (r + 1) = false) (hr : r ≤ 9) :
    ∀ d via, 1 ≤ via → via + d = r + 1 →
      followRedirects redirects via = some (r + 1) := by
  intro d
  induction d with
  | zero =>
    intro via h1 h2
    have hv : via = r + 1 := by omega
    rw [followRedirects, hv, hfin]
    simp
  | succ n ih =>
    intro via h1 h2
    have hvr : via ≤ r := by omega
    rw [followRedirects]
    simp only [hpre via h1 hvr, if_true]
    split
    · rename_i msg heq
      rw [checkRedirect] at heq
      split at heq
      · rename_i hge; omega
      · exact absurd heq (by simp)
    · exact ih (via + 1) (by omega) (by omega)

/-- Following a chain of 10 or more redirects fails at the 10th redirect. -/
theorem followRedirects_fail (redirects : Nat → Bool) (r : Nat)
    (hpre : ∀ j, 1 ≤ j → j ≤ r → redirects j = true) (hr : 10 ≤ r) :
    ∀ d via, 1 ≤ via → via + d = 10 →
      followRedirects redirects via = none := by
  intro d
  induction d with
  | zero =>
    intro via h1 h2
    have hv : via = 10 := by omega
    rw [followRedirects]
    simp only [hpre via h1 (by omega), if_true]
    split
    · rfl
    · rename_i heq
      rw [checkRedirect, hv] at heq
      simp at heq
  | succ n ih =>
    intro via h1 h2
    rw [followRedirects]
    simp only [hpre via h1 (by omega), if_true]
    split
    · rfl
    · exact ih (via + 1) (by omega) (by omega)

/-- What `doFetch` returns on a retryable attempt: an error carrying the
attempt's cause, whose partial response (if any) is not a 4xx. -/
theorem doFetch_retryable (a : AttemptResult) (h : retryable a) :
    ∃ resp, doFetch a = .error (resp, causeOf a) ∧
      ∀ c, resp = some c → ¬(400 ≤ c ∧ c < 500) := by
  cases a with
  | transportFailure => exact ⟨none, rfl, by simp⟩
  | response c readFails =>
    unfold retryable at h
    obtain ⟨hfail, h4⟩ := h
    cases readFails with
    | true =>
      refine ⟨some c, by simp [doFetch, causeOf], ?_⟩
      intro c' hc'; cases hc'; exact h4
    | false =>
      have hnc : c < 200 ∨ c ≥ 300 := by
        rcases hfail with h | h | h
        · simp at h
        · exact Or.inl h
        · exact Or.inr h
      refine ⟨some c, by simp [doFetch, causeOf, hnc], ?_⟩
      intro c' hc'; cases hc'; exact h4

/-- If every attempt from `attempt` through `MaxRetries` is retryable, the
loop runs them all and reports retries exhausted with the last cause. -/
theorem fetchGo_exhausted (config : Config) (env : Nat → AttemptResult) :
    ∀ d attempt lastErr, attempt + d = config.MaxRetries + 1 →
      (∀ i, attempt ≤ i → i ≤ config.MaxRetries → retryable (env i)) →
      (fetchGo config env attempt lastErr).attemptsMade =
        config.MaxRetries + 1 - attempt ∧
      (fetchGo config env attempt lastErr).result =
        .errExhausted config.MaxRetries
          (if attempt ≤ config.MaxRetries
           then some (causeOf (env config.MaxRetries)) else lastErr) := by
  intro d
  induction d with
  | zero =>
    intro attempt lastErr hd _hr
    have hgt : attempt > config.MaxRetries := by omega
    rw [fetchGo, dif_pos hgt]
    refine ⟨by simp; omega, ?_⟩
    simp only []
    rw [if_neg (by omega)]
  | succ n ih =>
    intro attempt lastErr hd hr
    have hle : attempt ≤ config.MaxRetries := by omega
    have hretry := hr attempt le_rfl hle
    obtain ⟨resp, hdo, h4⟩ := doFetch_retryable (env attempt) hretry
    rw [fetchGo, dif_neg (by omega), hdo]
    have ihn := ih (attempt + 1) (some (causeOf (env attempt))) (by omega)
      (fun i hi1 hi2 => hr i (by omega) hi2)
    have hlast : (if attempt + 1 ≤ config.MaxRetries
        then some (causeOf (env config.MaxRetries))
        else some (causeOf (env attempt))) =
        some (causeOf (env config.MaxRetries)) := by
      split
      · rfl
      · have : attempt = config.MaxRetries := by omega
        rw [this]
    cases resp with
    | none =>
      dsimp only
      refine ⟨?_, ?_⟩
      · rw [ihn.1]; omega
      · rw [ihn.2, hlast, if_pos hle]
    | some c =>
      have hc4 : ¬((400:Int) ≤ c ∧ c < 500) := h4 c rfl
      dsimp only
      rw [if_neg hc4]
      refine ⟨?_, ?_⟩
      · dsimp only; rw [ihn.1]; omega
      · dsimp only; rw [ihn.2, hlast, if_pos hle]

/-- If attempts before `k` are retryable and attempt `k` yields a response
with a 4xx status (whether from the status check or a body-read failure), the
loop stops at attempt `k` with the immediate client error. -/
theorem fetchGo_client (config : Config) (env : Nat → AttemptResult)
    (k : Nat) (c : Int) (readFails : Bool)
    (hk : k ≤ config.MaxRetries)
    (henv : env k = .response c readFails) (h400 : 400 ≤ c) (h500 : c < 500) :
    ∀ d attempt lastErr, attempt + d = k →
      (∀ i, attempt ≤ i → i < k → retryable (env i)) →
      (fetchGo config env attempt lastErr).attemptsMade = k + 1 - attempt ∧
      (fetchGo config env attempt lastErr).result =
        .errClient c (causeOf (env k)) ∧
      (attempt = 0 → k = 0 → (fetchGo config env attempt lastErr).delays = []) := by
  intro d
  induction d with
  | zero =>
    intro attempt lastErr hd _hr
    have hak : attempt = k := by omega
    subst hak
    have hdo : doFetch (env attempt) =
        .error (some c, causeOf (env attempt)) := by
      rw [henv]
      cases readFails with
      | true => simp [doFetch, causeOf]
      | false =>
        have : c < 200 ∨ c ≥ 300 := by omega
        simp [doFetch, causeOf, this]
    rw [fetchGo, dif_neg (by omega), hdo]
    dsimp only
    rw [if_pos (show (400:Int) ≤ c ∧ c < 500 from ⟨h400, h500⟩)]
    refine ⟨by dsimp only; omega, rfl, ?_⟩
    intro h0 _
    subst h0
    simp
  | succ n ih =>
    intro attempt lastErr hd hr
    have hak : attempt < k := by omega
    have hretry := hr attempt le_rfl hak
    obtain ⟨resp, hdo, h4⟩ := doFetch_retryable (env attempt) hretry
    rw [fetchGo, dif_neg (by omega), hdo]
    have ihn := ih (attempt + 1) (some (causeOf (env attempt))) (by omega)
      (fun i hi1 hi2 => hr i (by omega) hi2)
    cases resp with
    | none =>
      dsimp only
      refine ⟨?_, ?_, ?_⟩
      · rw [ihn.1]; omega
      · exact ihn.2.1
      · intro h0 hk0; omega
    | some c' =>
      have hc4 : ¬((400:Int) ≤ c' ∧ c' < 500) := h4 c' rfl
      dsimp only
      rw [if_neg hc4]
      refine ⟨?_, ?_, ?_⟩
      · dsimp only; rw [ihn.1]; omega
      · dsimp only; exact ihn.2.1
      · intro h0 hk0; omega

end fetcher

namespace fetcher

/-! ## Claim theorems for the fetcher -/

/-- Evaluation of `calculateBackoff` when the initial delay is an exactly
representable positive `int64` and the product does not overflow the
`float64` range: the result is the capped minimum while the product fits
`int64`, and is implementation-defined (`none`) beyond. -/
theorem calculateBackoff_spec (config : Config) (k : Nat)
    (h2 : 0 < config.InitialDelay) (h3 : config.InitialDelay < 2 ^ 53)
    (hk : ¬ (1024 ≤ k - 1))
    (hlt : config.InitialDelay * 2 ^ (k - 1) < 2 ^ 1024) :
    calculateBackoff config k =
      (if config.InitialDelay * 2 ^ (k - 1) ≤ 2 ^ 63 - 1 then
        some (min (config.InitialDelay * 2 ^ (k - 1)) config.MaxDelay)
      else none) := by
  have hx : floatOfInt config.InitialDelay = config.InitialDelay := by
    have h53 : config.InitialDelay.toNat < 2 ^ 53 := by
      have h53i : (2:Int) ^ 53 = 9007199254740992 := by norm_num
      have h53n : (2:Nat) ^ 53 = 9007199254740992 := by norm_num
      rw [h53i] at h3
      rw [h53n]
      omega
    unfold floatOfInt floatOfNat
    rw [if_pos (le_of_lt h2), if_pos h53]
    exact Int.toNat_of_nonneg (le_of_lt h2)
  have hpos : 0 < config.InitialDelay * 2 ^ (k - 1) :=
    mul_pos h2 (pow_pos (by norm_num) _)
  have h1024 : (0:Int) < 2 ^ 1024 := by positivity
  have h63 : (0:Int) < 2 ^ 63 := by positivity
  unfold calculateBackoff floatMulPow2
  rw [hx, if_neg hk, if_pos ⟨by omega, hlt⟩]
  show (if -(2 ^ 63) ≤ config.InitialDelay * 2 ^ (k - 1) ∧
      config.InitialDelay * 2 ^ (k - 1) ≤ 2 ^ 63 - 1 then
    some (if config.InitialDelay * 2 ^ (k - 1) > config.MaxDelay
      then config.MaxDelay else config.InitialDelay * 2 ^ (k - 1))
    else none) =
    (if config.InitialDelay * 2 ^ (k - 1) ≤ 2 ^ 63 - 1 then
      some (min (config.InitialDelay * 2 ^ (k - 1)) config.MaxDelay)
    else none)
  by_cases hr : config.InitialDelay * 2 ^ (k - 1) ≤ 2 ^ 63 - 1
  · rw [if_pos (show -(2 ^ 63) ≤ config.InitialDelay * 2 ^ (k - 1) ∧
        config.InitialDelay * 2 ^ (k - 1) ≤ 2 ^ 63 - 1 from ⟨by omega, hr⟩),
      if_pos hr]
    rcases le_or_lt (config.InitialDelay * 2 ^ (k - 1)) config.MaxDelay with
      hle | hgt
    · rw [if_neg (by omega), min_eq_left hle]
    · rw [if_pos hgt, min_eq_right (le_of_lt hgt)]
  · rw [if_neg (fun hc => hr hc.2), if_neg hr]

/-- C9 counterexample: the min-formula does not hold for every retry number.
With `initialDelay = 1s` and `maxDelay = 30s`, at attempt 35 the uncapped
delay exceeds `30s`, yet the exact `float64` product `10^9 * 2^34` lies
outside the `int64` range, so the `time.Duration` conversion — performed
*before* the cap comparison — is implementation-defined (on gc/amd64 it
yields the negative minimum `int64`, which the cap then leaves in place):
the program is not specified to return the capped `30s`, and the reference
implementation does not.  Attempt 34 still returns `30s`. -/
theorem C9_backoff_counterexample :
    calculateBackoff ⟨3, 10 ^ 9, 30 * 10 ^ 9⟩ 35 = none ∧
    30 * 10 ^ 9 < (10 ^ 9 : Int) * 2 ^ (35 - 1) ∧
    calculateBackoff ⟨3, 10 ^ 9, 30 * 10 ^ 9⟩ 34 = some (30 * 10 ^ 9) := by
  have h35 := calculateBackoff_spec ⟨3, 10 ^ 9, 30 * 10 ^ 9⟩ 35
    (by norm_num) (by norm_num) (by norm_num) (by norm_num)
  have h34 := calculateBackoff_spec ⟨3, 10 ^ 9, 30 * 10 ^ 9⟩ 34
    (by norm_num) (by norm_num) (by norm_num) (by norm_num)
  refine ⟨?_, by norm_num, ?_⟩
  · rw [h35, if_neg (by norm_num)]
  · rw [h34, if_pos (by norm_num)]
    rw [show ((⟨3, 10 ^ 9, 30 * 10 ^ 9⟩ : Config).MaxDelay) = 30 * 10 ^ 9
      from rfl, min_eq_right (by norm_num)]

/-- C9 (amended): whenever the computation stays within `float64` exactness
and `int64` range — `0 < initialDelay < 2^53` and
`initialDelay · 2^(k-1) ≤ 2^63 - 1` — the backoff before the `k`-th retry
(`k ≥ 1`) equals `min(initialDelay · 2^(k-1), maxDelay)`; with
`initialDelay = 1s`, `maxDelay = 30s` this gives 1s, 2s, 4s, 8s, 16s for
attempts 1–5 and exactly 30s for attempts 6 through 34. -/
theorem C9_backoff_min_formula (config : Config) (k : Nat) (h1 : 1 ≤ k)
    (h2 : 0 < config.InitialDelay) (h3 : config.InitialDelay < 2 ^ 53)
    (h4 : config.InitialDelay * 2 ^ (k - 1) ≤ 2 ^ 63 - 1) :
    calculateBackoff config k =
      some (min (config.InitialDelay * 2 ^ (k - 1)) config.MaxDelay) := by
  have hbig : ((2:Int) ^ 63 - 1) < 2 ^ 1024 := by norm_num
  have hklt : ¬ (1024 ≤ k - 1) := by
    intro hk
    have hp1 : (2:Int) ^ 1024 ≤ 2 ^ (k - 1) :=
      pow_le_pow_right (by norm_num) hk
    have hp2 : (2:Int) ^ (k - 1) ≤ config.InitialDelay * 2 ^ (k - 1) :=
      le_mul_of_one_le_left (pow_nonneg (by norm_num) _) (by omega)
    omega
  rw [calculateBackoff_spec config k h2 h3 hklt (by omega), if_pos h4]

/-- C9 witness: with `initialDelay = 1s`, `maxDelay = 30s`, all hypotheses
hold at the 6th retry and the delay is exactly 30 seconds (the uncapped
delay would be 32s). -/
theorem C9_backoff_min_formula_witness :
    1 ≤ 6 ∧ (0:Int) < 10 ^ 9 ∧ (10 ^ 9 : Int) < 2 ^ 53 ∧
    (10 ^ 9 : Int) * 2 ^ (6 - 1) ≤ 2 ^ 63 - 1 ∧
    calculateBackoff ⟨3, 10 ^ 9, 30 * 10 ^ 9⟩ 6 =
      some (min ((10 ^ 9 : Int) * 2 ^ (6 - 1)) (30 * 10 ^ 9)) :=
  ⟨by decide, by decide, by decide, by decide,
    C9_backoff_min_formula ⟨3, 10 ^ 9, 30 * 10 ^ 9⟩ 6 (by decide)
      (by decide) (by decide) (by decide)⟩

/-- C3 counterexample: the redirect-check predicate rejects a request whose
prior chain has length exactly 10 (the claim said length 10 is permitted),
and a fetch whose chain contains exactly 10 redirects fails rather than
reaching the final response. -/
theorem C3_redirect_cap_counterexample :
    checkRedirect 10 ≠ none ∧
    fetchRedirects (fun j => decide (j ≤ 10)) = none := by
  refine ⟨by decide, ?_⟩
  exact followRedirects_fail (fun j => decide (j ≤ 10)) 10
    (fun j h1 h2 => by simpa using h2) le_rfl 9 1 le_rfl (by norm_num)

/-- C3 (amended): the fetcher follows redirect chains of length up to 9 and
returns the final response; a chain of 10 or more redirects fails with the
too-many-redirects error; equivalently the redirect-check predicate permits
the request exactly when the chain of prior requests has length 9 or less. -/
theorem C3_redirect_cap (redirects : Nat → Bool) (r : Nat)
    (hpre : ∀ j, 1 ≤ j → j ≤ r → redirects j = true)
    (hfin : redirects (r + 1) = false) :
    (r ≤ 9 → fetchRedirects redirects = some (r + 1)) ∧
    (10 ≤ r → fetchRedirects redirects = none) ∧
    (∀ lenVia, checkRedirect lenVia = none ↔ lenVia ≤ 9) := by
  refine ⟨?_, ?_, checkRedirect_none_iff⟩
  · intro hr
    exact followRedirects_success redirects r hpre hfin hr r 1 le_rfl (by omega)
  · intro hr
    exact followRedirects_fail redirects r hpre hr 9 1 le_rfl (by norm_num)

/-- C3 witness: a chain of exactly 3 redirects is fully followed, the fetch
making 4 requests in total. -/
theorem C3_redirect_cap_witness :
    fetchRedirects (fun j => decide (j ≤ 3)) = some 4 :=
  (C3_redirect_cap (fun j => decide (j ≤ 3)) 3
    (fun j h1 h2 => by simpa using h2) (by decide)).1 (by norm_num)

/-- C2 counterexample: with `MaxRetries = 2`, a URL whose every attempt is a
body-read failure on a 404 response — a "body-read failure", hence retryable
per the claim — is **not** attempted 3 times: `Fetch` returns the permanent
client error after a single attempt, because the retry decision looks only at
the 4xx status of the partial response. -/
theorem C2_retry_counterexample :
    (Fetch ⟨2, 10 ^ 9, 30 * 10 ^ 9⟩ (fun _ => .response 404 true)).attemptsMade = 1 ∧
    (Fetch ⟨2, 10 ^ 9, 30 * 10 ^ 9⟩ (fun _ => .response 404 true)).result
      = .errClient 404 (.bodyRead 404) ∧
    ¬((Fetch ⟨2, 10 ^ 9, 30 * 10 ^ 9⟩ (fun _ => .response 404 true)).attemptsMade = 2 + 1) := by
  have h := fetchGo_client ⟨2, 10 ^ 9, 30 * 10 ^ 9⟩ (fun _ => .response 404 true)
    0 404 true (by norm_num) rfl (by norm_num) (by norm_num) 0 0 none rfl
    (fun i hi1 hi2 => absurd hi2 (by omega))
  refine ⟨by simpa [Fetch] using h.1, ?_, ?_⟩
  · have h2 := h.2.1
    simpa [Fetch, causeOf] using h2
  · have h1 := h.1
    simp only [Fetch]
    omega

/-- C2 (amended): with `MaxRetries = n`, if every attempt fails retryably —
5xx (or other non-2xx outside 4xx) status, transport failure, or a body-read
failure whose response status is not a 4xx — then `Fetch` performs exactly
`n + 1` attempts and returns the retries-exhausted error wrapping the last
attempt's cause; whereas if an attempt yields a response with a 4xx status
(all earlier attempts retryable), `Fetch` returns the permanent client error
immediately after that attempt, with no further attempts, and with no backoff
delay at all when it is the first attempt. -/
theorem C2_retry_counts (config : Config) (env : Nat → AttemptResult) :
    ((∀ i, i ≤ config.MaxRetries → retryable (env i)) →
      (Fetch config env).attemptsMade = config.MaxRetries + 1 ∧
      (Fetch config env).result =
        .errExhausted config.MaxRetries (some (causeOf (env config.MaxRetries)))) ∧
    (∀ k c readFails, k ≤ config.MaxRetries →
      (∀ i, i < k → retryable (env i)) →
      env k = .response c readFails → 400 ≤ c → c < 500 →
      (Fetch config env).attemptsMade = k + 1 ∧
      (Fetch config env).result = .errClient c (causeOf (env k)) ∧
      (k = 0 → (Fetch config env).delays = [])) := by
  constructor
  · intro hr
    have h := fetchGo_exhausted config env (config.MaxRetries + 1) 0 none
      (by omega) (fun i _ hi2 => hr i hi2)
    refine ⟨by simpa [Fetch] using h.1, ?_⟩
    have h2 := h.2
    rw [if_pos (Nat.zero_le _)] at h2
    simpa [Fetch] using h2
  · intro k c readFails hk hr henv h400 h500
    have h := fetchGo_client config env k c readFails hk henv h400 h500 k 0
      none (by omega) (fun i _ hi2 => hr i hi2)
    exact ⟨by simpa [Fetch] using h.1, by simpa [Fetch] using h.2.1,
      fun hk0 => by simpa [Fetch] using h.2.2 rfl hk0⟩

/-- C2 witness: with `MaxRetries = 2`, a server answering 500 on every
attempt receives exactly 3 requests and the caller sees retries exhausted;
a server answering 404 receives exactly 1 request with no backoff sleep. -/
theorem C2_retry_counts_witness :
    (Fetch ⟨2, 10 ^ 9, 30 * 10 ^ 9⟩ (fun _ => .response 500 false)).attemptsMade = 3 ∧
    (Fetch ⟨2, 10 ^ 9, 30 * 10 ^ 9⟩ (fun _ => .response 500 false)).result
      = .errExhausted 2 (some (.httpStatus 500)) ∧
    (Fetch ⟨2, 10 ^ 9, 30 * 10 ^ 9⟩ (fun _ => .response 404 false)).attemptsMade = 1 ∧
    (Fetch ⟨2, 10 ^ 9, 30 * 10 ^ 9⟩ (fun _ => .response 404 false)).delays = [] := by
  have h1 := (C2_retry_counts ⟨2, 10 ^ 9, 30 * 10 ^ 9⟩
    (fun _ => .response 500 false)).1 (fun i _ => by constructor <;> norm_num)
  have h2 := (C2_retry_counts ⟨2, 10 ^ 9, 30 * 10 ^ 9⟩
    (fun _ => .response 404 false)).2 0 404 false (by norm_num)
    (fun i hi => absurd hi (by omega)) rfl (by norm_num) (by norm_num)
  exact ⟨by simpa using h1.1, by simpa [causeOf] using h1.2,
    by simpa using h2.1, h2.2.2 rfl⟩

end fetcher

namespace scraper
/-! ## Supporting lemmas for the Tracker (visited ledger) -/

theorem lookup_cons (u k : String) (v : Int) (l : List (String × Int)) :
    ((k, v) :: l).lookup u = if u = k then some v else l.lookup u := by
  by_cases h : u = k
  · subst h; simp [List.lookup]
  · have hb : (u == k) = false := by simpa using h
    simp [List.lookup, hb, h]

theorem lookup_map_update (l : List (String × Int)) (url u : String) (st : Int) :
    (l.map fun p => if p.1 = url then (url, st) else p).lookup u =
      if u = url then (if (l.lookup url).isSome then some st else none)
      else l.lookup u := by
  induction l with
  | nil => by_cases h : u = url <;> simp [List.lookup, h]
  | cons p rest ih =>
    obtain ⟨k, v⟩ := p
    by_cases hk : k = url
    · subst hk
      have hhead : (if (k, v).1 = k then (k, st) else (k, v)) = (k, st) := by
        simp
      rw [List.map_cons, hhead, lookup_cons, lookup_cons, lookup_cons]
      by_cases hu : u = k
      · simp [hu]
      · rw [if_neg hu, if_neg hu, if_neg hu, ih, if_neg hu]
    · have hhead : (if (k, v).1 = url then (url, st) else (k, v)) = (k, v) := by
        simp [hk]
      rw [List.map_cons, hhead, lookup_cons, lookup_cons, lookup_cons]
      by_cases hu : u = k
      · subst hu
        have hnu : ¬ u = url := hk
        rw [if_neg hnu, if_pos rfl, if_pos rfl]
      · rw [if_neg hu, if_neg hu, ih]
        by_cases huu : u = url
        · have hku : ¬ url = k := fun h => hk h.symm
          rw [if_pos huu, if_pos huu, if_neg hku]
        · rw [if_neg huu, if_neg huu]

theorem lookup_markVisited (t : Tracker) (url u : String) (st : Int) :
    (t.MarkVisited url st).visited.lookup u =
      if u = url then some st else t.visited.lookup u := by
  unfold Tracker.MarkVisited
  cases h : t.visited.lookup url with
  | none =>
    simp only []
    rw [lookup_cons]
  | some v =>
    simp only []
    rw [lookup_map_update]
    by_cases hu : u = url <;> simp [hu, h]

theorem count_markVisited (t : Tracker) (url : String) (st : Int) :
    (t.MarkVisited url st).count =
      t.count + (if (t.visited.lookup url).isSome then 0 else 1) := by
  unfold Tracker.MarkVisited
  cases h : t.visited.lookup url <;> simp [h]

theorem runMarks_append (t : Tracker) (l1 l2 : List (String × Int)) :
    runMarks t (l1 ++ l2) = runMarks (runMarks t l1) l2 := by
  induction l1 generalizing t with
  | nil => rfl
  | cons m rest ih =>
    obtain ⟨url, st⟩ := m
    simp [runMarks, ih]

theorem lookup_runMarks (t : Tracker) (ms : List (String × Int)) (u : String) :
    (runMarks t ms).visited.lookup u =
      match specLastStatus ms u with
      | some st => some st
      | none => t.visited.lookup u := by
  induction ms using List.reverseRecOn generalizing t with
  | nil => simp [specLastStatus, runMarks]
  | append_singleton rest m ih =>
    obtain ⟨url, st⟩ := m
    rw [runMarks_append]
    have hrun : runMarks (runMarks t rest) [(url, st)] =
        (runMarks t rest).MarkVisited url st := rfl
    rw [hrun, lookup_markVisited]
    unfold specLastStatus
    rw [List.reverse_append]
    simp only [List.reverse_singleton, List.singleton_append, List.find?]
    by_cases hu : u = url
    · subst hu
      simp [ih]
    · have hne : (decide ((url, st).1 = u)) = false := by
        simpa using fun h => hu h.symm
      rw [hne]
      simp only [if_neg hu]
      rw [ih]
      rfl

/-- `MarkVisited` marks exactly the URLs in the call sequence. -/
theorem isVisited_runMarks (ms : List (String × Int)) (u : String) :
    (runMarks NewTracker ms).IsVisited u = true ↔ u ∈ ms.map Prod.fst := by
  unfold Tracker.IsVisited
  rw [lookup_runMarks]
  unfold specLastStatus
  cases hf : ms.reverse.find? fun m => decide (m.1 = u) with
  | none =>
    have hnone : ∀ m ∈ ms, ¬ m.1 = u := by
      intro m hm
      have := List.find?_eq_none.mp hf m (List.mem_reverse.mpr hm)
      simpa using this
    simp only [Option.map_none']
    constructor
    · intro h
      simp [NewTracker, List.lookup] at h
    · intro h
      obtain ⟨m, hm, rfl⟩ := List.mem_map.mp h
      exact absurd rfl (hnone m hm)
  | some m =>
    have hp : m.1 = u := by simpa using List.find?_some hf
    have hmem : m ∈ ms := List.mem_reverse.mp (List.mem_of_find?_eq_some hf)
    simp only [Option.map_some']
    constructor
    · intro _
      exact List.mem_map.mpr ⟨m, hmem, hp⟩
    · intro _
      simp

/-- The distinct-URL counter counts exactly the set of URLs ever marked. -/
theorem count_runMarks (ms : List (String × Int)) :
    (runMarks NewTracker ms).count = ((ms.map Prod.fst).toFinset.card : Int) := by
  induction ms using List.reverseRecOn with
  | nil => simp [runMarks, NewTracker]
  | append_singleton rest m ih =>
    obtain ⟨url, st⟩ := m
    rw [runMarks_append]
    have hrun : runMarks (runMarks NewTracker rest) [(url, st)] =
        (runMarks NewTracker rest).MarkVisited url st := rfl
    rw [hrun, count_markVisited, ih]
    have hset : ((rest ++ [(url, st)]).map Prod.fst).toFinset =
        insert url (rest.map Prod.fst).toFinset := by
      rw [List.map_append, List.toFinset_append]
      simp [Finset.union_comm, Finset.insert_eq]
    rw [hset]
    have hvis : ((runMarks NewTracker rest).visited.lookup url).isSome = true ↔
        url ∈ rest.map Prod.fst := by
      have := isVisited_runMarks rest url
      unfold Tracker.IsVisited at this
      exact this
    by_cases hmem : url ∈ rest.map Prod.fst
    · rw [if_pos (hvis.mpr hmem)]
      have : url ∈ (rest.map Prod.fst).toFinset := by simpa using hmem
      rw [Finset.insert_eq_self.mpr this]
      omega
    · rw [if_neg (by rw [hvis]; exact hmem)]
      have : url ∉ (rest.map Prod.fst).toFinset := by simpa using hmem
      rw [Finset.card_insert_of_not_mem this]
      push_cast
      omega

end scraper

namespace scraper

/-- C7: Ledger marking is a counted last-write-wins upsert: after any finite
sequence of `MarkVisited` calls, `VisitedCount` equals the number of distinct
URLs in the sequence; for every URL marked at least once, `GetStatus` returns
the status of its most recent `MarkVisited` call together with `found = true`;
for a URL never marked it returns `(0, false)` and `IsVisited` is false. -/
theorem C7_tracker_counted_upsert (ms : List (String × Int)) (u : String) :
    (runMarks NewTracker ms).VisitedCount = ((ms.map Prod.fst).toFinset.card : Int) ∧
    (runMarks NewTracker ms).GetStatus u =
      (match specLastStatus ms u with
       | some st => (st, true)
       | none => (0, false)) ∧
    ((runMarks NewTracker ms).IsVisited u = true ↔ u ∈ ms.map Prod.fst) := by
  refine ⟨count_runMarks ms, ?_, isVisited_runMarks ms u⟩
  unfold Tracker.GetStatus
  rw [lookup_runMarks]
  cases specLastStatus ms u with
  | some st => rfl
  | none => rfl

/-! ## Supporting lemmas for the Queue admission set -/

theorem Add_of_seen (q : Queue) (u : String) (rt : urlutil.ResourceType)
    (h : u ∈ q.seen) : q.Add u rt = (q, false) := by
  unfold Queue.Add
  rw [if_pos h]

theorem Add_of_not_seen (q : Queue) (u : String) (rt : urlutil.ResourceType)
    (h : u ∉ q.seen) :
    q.Add u rt = ({ pq := heapPush q.pq ⟨u, rt⟩, seen := u :: q.seen }, true) := by
  unfold Queue.Add
  rw [if_neg h]

theorem Pop_seen (q : Queue) : (q.Pop).1.seen = q.seen := by
  unfold Queue.Pop
  split <;> rfl

theorem Add_seen (q : Queue) (url u : String) (rt : urlutil.ResourceType)
    (h : u ∈ q.seen) : u ∈ (q.Add url rt).1.seen := by
  unfold Queue.Add
  split
  · exact h
  · exact List.mem_cons_of_mem _ h

theorem applyOp_seen (q : Queue) (op : QOp) (u : String) (h : u ∈ q.seen) :
    u ∈ (applyOp q op).seen := by
  cases op with
  | add url rt => exact Add_seen q url u rt h
  | pop => rw [applyOp, Pop_seen]; exact h

theorem runOps_seen (q : Queue) (ops : List QOp) (u : String) (h : u ∈ q.seen) :
    u ∈ (runOps q ops).seen := by
  induction ops generalizing q with
  | nil => exact h
  | cons op rest ih => exact ih (applyOp q op) (applyOp_seen q op u h)

theorem pqSet_length (l : List QueueItem) (i : Nat) (x : QueueItem) :
    (pqSet l i x).length = l.length := by
  induction l generalizing i with
  | nil => rfl
  | cons a xs ih =>
    cases i with
    | zero => rfl
    | succ n => simpa [pqSet] using ih n

theorem pqSwap_length (l : List QueueItem) (i j : Nat) :
    (pqSwap l i j).length = l.length := by
  unfold pqSwap
  rw [pqSet_length, pqSet_length]

theorem up_length (l : List QueueItem) (j : Nat) :
    (up l j).length = l.length := by
  induction l, j using up.induct with
  | case1 l => rw [up]; simp
  | case2 l j hj i hlt ih =>
    rw [up]
    simp only [if_neg hj, hlt, if_true]
    rw [ih, pqSwap_length]
  | case3 l j hj i hlt =>
    rw [up]
    simp [hj, hlt]

theorem heapPush_length (l : List QueueItem) (x : QueueItem) :
    (heapPush l x).length = l.length + 1 := by
  unfold heapPush
  rw [up_length]
  simp

/-- The number of `true` results among the `Add` calls for `u`, over an
arbitrary operation sequence from an arbitrary starting state. -/
theorem addTrueCount_spec (ops : List QOp) (q : Queue) (u : String) :
    addTrueCount q ops u =
      if u ∈ q.seen then 0 else (if hasAddFor u ops then 1 else 0) := by
  induction ops generalizing q with
  | nil => simp [addTrueCount, hasAddFor]
  | cons op rest ih =>
    cases op with
    | pop =>
      rw [show addTrueCount q (.pop :: rest) u = addTrueCount (q.Pop).1 rest u
        from rfl]
      rw [ih, Pop_seen]
      have : hasAddFor u (.pop :: rest) = hasAddFor u rest := by
        simp [hasAddFor]
      rw [this]
    | add url rt =>
      rw [show addTrueCount q (.add url rt :: rest) u =
        (if url = u ∧ (q.Add url rt).2 = true then 1 else 0) +
          addTrueCount (q.Add url rt).1 rest u from rfl]
      have hhas : hasAddFor u (.add url rt :: rest) =
          (decide (url = u) || hasAddFor u rest) := by
        simp [hasAddFor]
      rw [hhas, ih]
      by_cases hmem : u ∈ q.seen
      · rw [if_pos hmem]
        by_cases hurl : url = u
        · subst hurl
          rw [Add_of_seen q url rt hmem]
          simp [hmem]
        · rw [if_pos (Add_seen q url u rt hmem)]
          simp [hurl]
      · rw [if_neg hmem]
        by_cases hurl : url = u
        · subst hurl
          rw [Add_of_not_seen q url rt hmem]
          simp
        · have hseen : (u ∈ (q.Add url rt).1.seen) ↔ u ∈ q.seen := by
            unfold Queue.Add
            split
            · exact Iff.rfl
            · constructor
              · intro hm
                rcases List.mem_cons.mp hm with hc | hc
                · exact absurd hc.symm hurl
                · exact hc
              · exact fun hm => List.mem_cons_of_mem _ hm
          by_cases h2 : u ∈ (q.Add url rt).1.seen
          · exact absurd (hseen.mp h2) hmem
          · rw [if_neg h2]
            simp [hurl]

/-- C1: Frontier admission deduplication is permanent.  Over any operation
interleaving from a fresh queue, the `Add` calls for a URL `u` return `true`
exactly once if `u` is ever added (zero times otherwise); an `Add` for a URL
already in the admission set returns `false` and leaves the queue (heap and
admission set) unchanged — and the admission set is never cleared, even by
`Pop` — while the first `Add` returns `true` and enqueues exactly one item. -/
theorem C1_queue_admission_dedup (ops : List QOp) (u : String) (q : Queue)
    (rt : urlutil.ResourceType) :
    (addTrueCount NewQueue ops u = if hasAddFor u ops then 1 else 0) ∧
    (u ∈ q.seen → q.Add u rt = (q, false)) ∧
    (u ∈ q.seen → u ∈ (runOps q ops).seen) ∧
    (u ∉ q.seen → (q.Add u rt).2 = true ∧
      (q.Add u rt).1.pq.length = q.pq.length + 1 ∧ u ∈ (q.Add u rt).1.seen) := by
  refine ⟨?_, Add_of_seen q u rt, runOps_seen q ops u, ?_⟩
  · rw [addTrueCount_spec]
    simp [NewQueue]
  · intro h
    rw [Add_of_not_seen q u rt h]
    refine ⟨rfl, ?_, List.mem_cons_self u q.seen⟩
    simp [heapPush_length]

/-- C1 witness: from a fresh queue, adding `"a"`, popping, and adding `"a"`
again yields exactly one `true`; the first `Add` on the fresh queue returns
`true` and enqueues one item. -/
theorem C1_queue_admission_dedup_witness :
    addTrueCount NewQueue
      [QOp.add "a" .html, QOp.pop, QOp.add "a" .css] "a" = 1 ∧
    (NewQueue.Add "a" urlutil.ResourceType.html).2 = true ∧
    (NewQueue.Add "a" urlutil.ResourceType.html).1.pq.length = 1 := by
  have h := C1_queue_admission_dedup
    [QOp.add "a" .html, QOp.pop, QOp.add "a" .css] "a" NewQueue .html
  have hnot : "a" ∉ NewQueue.seen := by simp [NewQueue]
  refine ⟨?_, (h.2.2.2 hnot).1, ?_⟩
  · rw [h.1]
    rfl
  · rw [(h.2.2.2 hnot).2.1]
    rfl

end scraper

namespace scraper

/-! ## Supporting lemmas for the heap-backed priority queue -/

theorem pqGet_set_eq (l : List QueueItem) (i : Nat) (x : QueueItem)
    (h : i < l.length) : pqGet (pqSet l i x) i = x := by
  induction l generalizing i with
  | nil => simp at h
  | cons a xs ih =>
    cases i with
    | zero => rfl
    | succ n => exact ih n (by simpa using h)

theorem pqGet_set_ne (l : List QueueItem) (i : Nat) (x : QueueItem) (k : Nat)
    (h : k ≠ i) : pqGet (pqSet l i x) k = pqGet l k := by
  induction l generalizing i k with
  | nil => rfl
  | cons a xs ih =>
    cases i with
    | zero =>
      cases k with
      | zero => exact absurd rfl h
      | succ m => rfl
    | succ n =>
      cases k with
      | zero => rfl
      | succ m => exact ih n m (by omega)

theorem pqSet_get_self (l : List QueueItem) (i : Nat) :
    pqSet l i (pqGet l i) = l := by
  induction l generalizing i with
  | nil => rfl
  | cons a xs ih =>
    cases i with
    | zero => rfl
    | succ n => simpa [pqSet, pqGet] using ih n

theorem pqGet_swap (l : List QueueItem) (i j k : Nat)
    (hi : i < l.length) (hj : j < l.length) :
    pqGet (pqSwap l i j) k =
      if k = j then pqGet l i else if k = i then pqGet l j else pqGet l k := by
  unfold pqSwap
  by_cases hkj : k = j
  · subst hkj
    rw [pqGet_set_eq _ _ _ (by rw [pqSet_length]; exact hj), if_pos rfl]
  · rw [pqGet_set_ne _ _ _ _ hkj, if_neg hkj]
    by_cases hki : k = i
    · subst hki
      rw [pqGet_set_eq _ _ _ hi, if_pos rfl]
    · rw [pqGet_set_ne _ _ _ _ hki, if_neg hki]

theorem perm_cons_pqSet (l : List QueueItem) (n : Nat) (x : QueueItem)
    (h : n < l.length) : (pqGet l n :: pqSet l n x).Perm (x :: l) := by
  induction l generalizing n with
  | nil => simp at h
  | cons a xs ih =>
    cases n with
    | zero => exact List.Perm.swap x a xs
    | succ m =>
      have hm : m < xs.length := by simpa using h
      have h1 : (pqGet xs m :: a :: pqSet xs m x).Perm
          (a :: pqGet xs m :: pqSet xs m x) := List.Perm.swap a (pqGet xs m) _
      have h2 : (a :: pqGet xs m :: pqSet xs m x).Perm (a :: x :: xs) :=
        (ih m hm).cons a
      have h3 : (a :: x :: xs).Perm (x :: a :: xs) := List.Perm.swap x a xs
      exact h1.trans (h2.trans h3)

theorem pqSwap_perm (l : List QueueItem) (i j : Nat)
    (hi : i < l.length) (hj : j < l.length) : (pqSwap l i j).Perm l := by
  induction l generalizing i j with
  | nil => simp at hi
  | cons a xs ih =>
    cases i with
    | zero =>
      cases j with
      | zero => exact List.Perm.refl _
      | succ m =>
        have hm : m < xs.length := by simpa using hj
        have hcomp : pqSwap (a :: xs) 0 (m + 1) =
            pqGet xs m :: pqSet xs m a := rfl
        rw [hcomp]
        exact perm_cons_pqSet xs m a hm
    | succ n =>
      cases j with
      | zero =>
        have hn : n < xs.length := by simpa using hi
        have hcomp : pqSwap (a :: xs) (n + 1) 0 =
            pqGet xs n :: pqSet xs n a := rfl
        rw [hcomp]
        exact perm_cons_pqSet xs n a hn
      | succ m =>
        have hcomp : pqSwap (a :: xs) (n + 1) (m + 1) =
            a :: pqSwap xs n m := rfl
        rw [hcomp]
        exact (ih n m (by simpa using hi) (by simpa using hj)).cons a

theorem mem_iff_pqGet (l : List QueueItem) (x : QueueItem) :
    x ∈ l ↔ ∃ k, k < l.length ∧ pqGet l k = x := by
  induction l with
  | nil => simp
  | cons a xs ih =>
    constructor
    · intro hm
      rcases List.mem_cons.mp hm with rfl | hm
      · exact ⟨0, by simp, rfl⟩
      · obtain ⟨k, hk, he⟩ := ih.mp hm
        exact ⟨k + 1, by simpa using hk, he⟩
    · rintro ⟨k, hk, rfl⟩
      cases k with
      | zero => exact List.mem_cons_self a xs
      | succ m =>
        exact List.mem_cons_of_mem a (ih.mpr ⟨m, by simpa using hk, rfl⟩)

theorem pqGet_append_left (l l2 : List QueueItem) (k : Nat)
    (h : k < l.length) : pqGet (l ++ l2) k = pqGet l k := by
  induction l generalizing k with
  | nil => simp at h
  | cons a xs ih =>
    cases k with
    | zero => rfl
    | succ m => exact ih m (by simpa using h)

theorem pqGet_take (l : List QueueItem) (n k : Nat) (h : k < n) :
    pqGet (l.take n) k = pqGet l k := by
  induction l generalizing n k with
  | nil => simp
  | cons a xs ih =>
    cases n with
    | zero => omega
    | succ m =>
      cases k with
      | zero => rfl
      | succ p => exact ih m p (by omega)

theorem list_take_append_last (l : List QueueItem) (n : Nat)
    (h : l.length = n + 1) : l = l.take n ++ [pqGet l n] := by
  induction l generalizing n with
  | nil => simp at h
  | cons a xs ih =>
    cases n with
    | zero =>
      have : xs = [] := by
        cases xs with
        | nil => rfl
        | cons b ys => simp at h
      simp [this, pqGet]
    | succ m =>
      have := ih m (by simpa using h)
      calc a :: xs = a :: (xs.take m ++ [pqGet xs m]) := by rw [← this]
        _ = (a :: xs).take (m + 1) ++ [pqGet (a :: xs) (m + 1)] := by simp [pqGet]

end scraper

namespace scraper

theorem less_iff (l : List QueueItem) (a b : Nat) :
    less l a b = true ↔ (pqGet l b).Weight < (pqGet l a).Weight := by
  simp [less]

theorem up_length' (l : List QueueItem) (j : Nat) :
    (up l j).length = l.length := up_length l j

theorem up_perm (l : List QueueItem) (j : Nat) (h : j < l.length) :
    (up l j).Perm l := by
  induction l, j using up.induct with
  | case1 l =>
    rw [up]
    simp
  | case2 l j hj i hlt ih =>
    rw [up]
    simp only [if_neg hj, hlt, if_true]
    have hij : (j - 1) / 2 < j := by omega
    have hperm := pqSwap_perm l ((j - 1) / 2) j (by omega) h
    exact (ih (by rw [pqSwap_length]; omega)).trans hperm
  | case3 l j hj i hlt =>
    rw [up]
    simp [hj, hlt]

end scraper

namespace scraper

/-- Sift-up repairs the heap: if every parent edge except the one into `j`
holds, and `j`'s children (if any) are already bounded by `j`'s parent, then
`up l j` satisfies the full heap invariant.  (Invariant shape follows the
usual sift-up argument: the violation moves up one level per swap.) -/
theorem up_heap (l : List QueueItem) (j : Nat) (h : j < l.length)
    (hA1 : ∀ k, 0 < k → k < l.length → k ≠ j →
      (pqGet l k).Weight ≤ (pqGet l ((k - 1) / 2)).Weight)
    (hA2 : ∀ k, 0 < k → k < l.length → (k - 1) / 2 = j → 0 < j →
      (pqGet l k).Weight ≤ (pqGet l ((j - 1) / 2)).Weight) :
    IsHeap (up l j) := by
  induction l, j using up.induct with
  | case1 l =>
    rw [up]
    simp only [if_pos rfl]
    intro k hk0 hklen
    exact hA1 k hk0 hklen (by omega)
  | case2 l j hj i hlt ih =>
    rw [up]
    simp only [if_neg hj, hlt, if_true]
    have hij : i < j := by omega
    have hilen : i < l.length := by omega
    have hwt : (pqGet l i).Weight < (pqGet l j).Weight := by
      have := hlt
      rw [less_iff] at this
      exact this
    have hswlen : (pqSwap l i j).length = l.length := pqSwap_length l i j
    have hget : ∀ k, pqGet (pqSwap l i j) k =
        if k = j then pqGet l i else if k = i then pqGet l j else pqGet l k :=
      fun k => pqGet_swap l i j k hilen h
    apply ih
    · omega
    · -- A1 for the swapped list at position i
      intro k hk0 hklen hki
      rw [hswlen] at hklen
      rw [hget k, hget ((k - 1) / 2)]
      by_cases hkj : k = j
      · -- the edge into j now holds: j holds the old parent value
        subst hkj
        rw [if_pos rfl]
        have hpar : (k - 1) / 2 = i := rfl
        rw [hpar, if_neg (by omega), if_pos rfl]
        exact le_of_lt hwt
      · rw [if_neg hkj]
        by_cases hpj : (k - 1) / 2 = j
        · -- k is a child of j: bounded by j's old parent, which now sits at j
          have hknoti : k ≠ i := by omega
          rw [if_neg hknoti, hpj, if_pos rfl]
          exact hA2 k hk0 hklen hpj (by omega)
        · by_cases hpi : (k - 1) / 2 = i
          · -- k is a child of i other than j: the value at i only grew
            have hknoti : k ≠ i := by omega
            rw [if_neg hknoti, hpi, if_neg (by omega), if_pos rfl]
            exact le_trans (hA1 k hk0 hklen hkj) (by rw [hpi] at *; exact le_of_lt hwt)
          · -- an untouched edge
            have hknoti : k ≠ i := hki
            rw [if_neg hknoti, if_neg hpj, if_neg hpi]
            exact hA1 k hk0 hklen hkj
    · -- A2 for the swapped list at position i
      intro k hk0 hklen hpar hi0
      rw [hswlen] at hklen
      rw [hget k, hget ((i - 1) / 2)]
      have hgp : (i - 1) / 2 < i := by omega
      rw [if_neg (by omega : ¬ (i - 1) / 2 = j), if_neg (by omega : ¬ (i - 1) / 2 = i)]
      by_cases hkj : k = j
      · subst hkj
        rw [if_pos rfl]
        have : (k - 1) / 2 = i := rfl
        exact hA1 i hi0 hilen (by omega)
      · have hknoti : k ≠ i := by omega
        rw [if_neg hkj, if_neg hknoti]
        have h1 := hA1 k hk0 hklen hkj
        rw [hpar] at h1
        exact le_trans h1 (hA1 i hi0 hilen (by omega))
  | case3 l j hj i hlt =>
    rw [up]
    rw [if_neg hj, if_neg hlt]
    intro k hk0 hklen
    by_cases hkj : k = j
    · subst hkj
      exact le_of_not_lt fun hcon => hlt ((less_iff l k ((k - 1) / 2)).mpr hcon)
    · exact hA1 k hk0 hklen hkj

end scraper

namespace scraper

theorem heapPush_perm (l : List QueueItem) (x : QueueItem) :
    (heapPush l x).Perm (x :: l) := by
  unfold heapPush
  have h1 : (up (l ++ [x]) l.length).Perm (l ++ [x]) :=
    up_perm (l ++ [x]) l.length (by simp)
  exact h1.trans (List.perm_append_singleton x l)

theorem heapPush_isHeap (l : List QueueItem) (x : QueueItem) (h : IsHeap l) :
    IsHeap (heapPush l x) := by
  unfold heapPush
  apply up_heap (l ++ [x]) l.length (by simp)
  · intro k hk0 hklen hkj
    have hkl : k < l.length := by
      simp only [List.length_append, List.length_singleton] at hklen
      omega
    rw [pqGet_append_left l [x] k hkl,
      pqGet_append_left l [x] ((k - 1) / 2) (by omega)]
    exact h k hk0 hkl
  · intro k hk0 hklen hpar hj0
    simp only [List.length_append, List.length_singleton] at hklen
    omega

/-- Sift-down repairs the heap on the first `n` positions: if every parent
edge below `n` except those out of `i` holds, and `i`'s children are bounded
by `i`'s parent, then `down l i n` satisfies the heap invariant up to `n`. -/
theorem down_heapN (l : List QueueItem) (i n : Nat) (hn : n ≤ l.length)
    (hD1 : ∀ k, 0 < k → k < n → (k - 1) / 2 ≠ i →
      (pqGet l k).Weight ≤ (pqGet l ((k - 1) / 2)).Weight)
    (hD2 : ∀ k, 0 < k → k < n → (k - 1) / 2 = i → 0 < i →
      (pqGet l k).Weight ≤ (pqGet l ((i - 1) / 2)).Weight) :
    IsHeapN (down l i n) n := by
  induction l, i, n using down.induct with
  | case1 l i n hchild =>
    rw [down]
    rw [if_pos hchild]
    intro k hk0 hkn
    by_cases hpar : (k - 1) / 2 = i
    · omega
    · exact hD1 k hk0 hkn hpar
  | case2 l i n hchild j hlt ih =>
    rw [down]
    rw [if_neg hchild]
    have hjdef : j = if 2 * i + 2 < n ∧ less l (2 * i + 2) (2 * i + 1) = true
        then 2 * i + 2 else 2 * i + 1 := rfl
    have hj12 : j = 2 * i + 1 ∨ j = 2 * i + 2 := by
      rw [hjdef]
      split
      · right; rfl
      · left; rfl
    have hjn : j < n := by
      rcases hj12 with hs | hs
      · omega
      · rw [hjdef] at hs
        by_cases hc : 2 * i + 2 < n ∧ less l (2 * i + 2) (2 * i + 1) = true
        · omega
        · rw [if_neg hc] at hs
          omega
    have hij : i < j := by omega
    have hjlen : j < l.length := by omega
    have hilen : i < l.length := by omega
    have hwt : (pqGet l i).Weight < (pqGet l j).Weight := (less_iff l j i).mp hlt
    have hmax1 : (pqGet l (2 * i + 1)).Weight ≤ (pqGet l j).Weight := by
      by_cases hc : 2 * i + 2 < n ∧ less l (2 * i + 2) (2 * i + 1) = true
      · rw [hjdef, if_pos hc]
        exact le_of_lt ((less_iff l (2 * i + 2) (2 * i + 1)).mp hc.2)
      · rw [hjdef, if_neg hc]
    have hmax2 : 2 * i + 2 < n →
        (pqGet l (2 * i + 2)).Weight ≤ (pqGet l j).Weight := by
      intro h2n
      by_cases hc : 2 * i + 2 < n ∧ less l (2 * i + 2) (2 * i + 1) = true
      · rw [hjdef, if_pos hc]
      · rw [hjdef, if_neg hc]
        have hnl : ¬ less l (2 * i + 2) (2 * i + 1) = true := by
          intro hcl
          exact hc ⟨h2n, hcl⟩
        exact le_of_not_lt fun hcon =>
          hnl ((less_iff l (2 * i + 2) (2 * i + 1)).mpr hcon)
    have hget : ∀ k, pqGet (pqSwap l i j) k =
        if k = j then pqGet l i else if k = i then pqGet l j else pqGet l k :=
      fun k => pqGet_swap l i j k hilen hjlen
    rw [← hjdef, if_pos hlt]
    apply ih
    · rw [pqSwap_length]; exact hn
    · -- D1 for the swapped list at position j
      intro k hk0 hkn hpar
      rw [hget k, hget ((k - 1) / 2)]
      by_cases hkj : k = j
      · -- edge (i, j) after the swap
        have hpi : (k - 1) / 2 = i := by omega
        rw [if_pos hkj, hpi, if_neg (show ¬ i = j by omega), if_pos rfl]
        exact le_of_lt hwt
      · rw [if_neg hkj]
        by_cases hki : k = i
        · -- edge into i: i now holds the larger child value
          rw [if_pos hki]
          have hpkj : ¬ (k - 1) / 2 = j := by omega
          have hpki : ¬ (k - 1) / 2 = i := by omega
          rw [if_neg hpkj, if_neg hpki]
          have hkeq : (k - 1) / 2 = (i - 1) / 2 := by omega
          rw [hkeq]
          exact hD2 j (by omega) hjn (by omega) (by omega)
        · by_cases hpari : (k - 1) / 2 = i
          · -- the sibling of j keeps its value; i holds the max child
            have hsib : k = 2 * i + 1 ∨ k = 2 * i + 2 := by omega
            rw [if_neg hki, hpari, if_neg (by omega), if_pos rfl]
            rcases hsib with hs | hs
            · rw [hs]; exact hmax1
            · rw [hs]; exact hmax2 (by omega)
          · -- untouched edge
            rw [if_neg hki, if_neg (by omega), if_neg hpari]
            exact hD1 k hk0 hkn hpari
    · -- D2 for the swapped list at position j
      intro k hk0 hkn hpar hj0
      rw [hget k, hget ((j - 1) / 2)]
      have hpj : (j - 1) / 2 = i := by omega
      have hkk : k ≠ j := by omega
      have hki : k ≠ i := by omega
      rw [hpj, if_neg hkk, if_neg hki, if_neg (show ¬ i = j by omega), if_pos rfl]
      have hfin := hD1 k hk0 hkn (by omega)
      rw [hpar] at hfin
      exact hfin
  | case3 l i n hchild j hlt =>
    rw [down]
    rw [if_neg hchild]
    have hjdef : j = if 2 * i + 2 < n ∧ less l (2 * i + 2) (2 * i + 1) = true
        then 2 * i + 2 else 2 * i + 1 := rfl
    rw [← hjdef, if_neg hlt]
    have hji : (pqGet l j).Weight ≤ (pqGet l i).Weight :=
      le_of_not_lt fun hcon => hlt ((less_iff l j i).mpr hcon)
    have hmax1 : (pqGet l (2 * i + 1)).Weight ≤ (pqGet l j).Weight := by
      by_cases hc : 2 * i + 2 < n ∧ less l (2 * i + 2) (2 * i + 1) = true
      · rw [hjdef, if_pos hc]
        exact le_of_lt ((less_iff l (2 * i + 2) (2 * i + 1)).mp hc.2)
      · rw [hjdef, if_neg hc]
    have hmax2 : 2 * i + 2 < n →
        (pqGet l (2 * i + 2)).Weight ≤ (pqGet l j).Weight := by
      intro h2n
      by_cases hc : 2 * i + 2 < n ∧ less l (2 * i + 2) (2 * i + 1) = true
      · rw [hjdef, if_pos hc]
      · rw [hjdef, if_neg hc]
        have hnl : ¬ less l (2 * i + 2) (2 * i + 1) = true := by
          intro hcl
          exact hc ⟨h2n, hcl⟩
        exact le_of_not_lt fun hcon =>
          hnl ((less_iff l (2 * i + 2) (2 * i + 1)).mpr hcon)
    intro k hk0 hkn
    by_cases hpar : (k - 1) / 2 = i
    · rw [hpar]
      have hks : k = 2 * i + 1 ∨ k = 2 * i + 2 := by omega
      rcases hks with hs | hs
    
      · rw [hs]; exact le_trans hmax1 hji
      · rw [hs]; exact le_trans (hmax2 (by omega)) hji
    · exact hD1 k hk0 hkn hpar

end scraper

namespace scraper

theorem down_length (l : List QueueItem) (i n : Nat) :
    (down l i n).length = l.length := by
  induction l, i, n using down.induct with
  | case1 l i n hchild =>
    rw [down, if_pos hchild]
  | case2 l i n hchild j hlt ih =>
    rw [down, if_neg hchild]
    have hjdef : j = if 2 * i + 2 < n ∧ less l (2 * i + 2) (2 * i + 1) = true
        then 2 * i + 2 else 2 * i + 1 := rfl
    rw [← hjdef, if_pos hlt, ih, pqSwap_length]
  | case3 l i n hchild j hlt =>
    rw [down, if_neg hchild]
    have hjdef : j = if 2 * i + 2 < n ∧ less l (2 * i + 2) (2 * i + 1) = true
        then 2 * i + 2 else 2 * i + 1 := rfl
    rw [← hjdef, if_neg hlt]

theorem down_perm (l : List QueueItem) (i n : Nat) (hn : n ≤ l.length) :
    (down l i n).Perm l := by
  induction l, i, n using down.induct with
  | case1 l i n hchild =>
    rw [down, if_pos hchild]
  | case2 l i n hchild j hlt ih =>
    rw [down, if_neg hchild]
    have hjdef : j = if 2 * i + 2 < n ∧ less l (2 * i + 2) (2 * i + 1) = true
        then 2 * i + 2 else 2 * i + 1 := rfl
    have hjn : j < n := by
      rw [hjdef]
      split <;> omega
    rw [← hjdef, if_pos hlt]
    have hperm := pqSwap_perm l i j (by omega) (by omega)
    exact (ih (by rw [pqSwap_length]; exact hn)).trans hperm
  | case3 l i n hchild j hlt =>
    rw [down, if_neg hchild]
    have hjdef : j = if 2 * i + 2 < n ∧ less l (2 * i + 2) (2 * i + 1) = true
        then 2 * i + 2 else 2 * i + 1 := rfl
    rw [← hjdef, if_neg hlt]

theorem down_get_ge (l : List QueueItem) (i n : Nat) (hn : n ≤ l.length)
    (hi : i < n) :
    ∀ k, n ≤ k → pqGet (down l i n) k = pqGet l k := by
  induction l, i, n using down.induct with
  | case1 l i n hchild =>
    intro k hk
    rw [down, if_pos hchild]
  | case2 l i n hchild j hlt ih =>
    intro k hk
    rw [down, if_neg hchild]
    have hjdef : j = if 2 * i + 2 < n ∧ less l (2 * i + 2) (2 * i + 1) = true
        then 2 * i + 2 else 2 * i + 1 := rfl
    have hjn : j < n := by
      rw [hjdef]
      split <;> omega
    rw [← hjdef, if_pos hlt]
    rw [ih (by rw [pqSwap_length]; exact hn) hjn k hk]
    rw [pqGet_swap l i j k (by omega) (by omega)]
    rw [if_neg (by omega), if_neg (by omega)]
  | case3 l i n hchild j hlt =>
    intro k hk
    rw [down, if_neg hchild]
    have hjdef : j = if 2 * i + 2 < n ∧ less l (2 * i + 2) (2 * i + 1) = true
        then 2 * i + 2 else 2 * i + 1 := rfl
    rw [← hjdef, if_neg hlt]

theorem isHeapN_root_max (l : List QueueItem) (n : Nat) (h : IsHeapN l n) :
    ∀ k, k < n → (pqGet l k).Weight ≤ (pqGet l 0).Weight := by
  intro k
  induction k using Nat.strong_induction_on with
  | _ k ih =>
    intro hk
    cases Nat.eq_zero_or_pos k with
    | inl h0 => rw [h0]
    | inr h0 =>
      have hpar := h k h0 hk
      have hlt : (k - 1) / 2 < k := by omega
      exact le_trans hpar (ih ((k - 1) / 2) hlt (by omega))

/-- `heapPop` on a nonempty heap: the returned item is a maximum-weight
element, the remainder is one item shorter, still a heap, and together with
the item a permutation of the input. -/
theorem heapPop_spec (l : List QueueItem) (hne : 0 < l.length)
    (hheap : IsHeap l) :
    (heapPop l).2.length = l.length - 1 ∧
    IsHeap (heapPop l).2 ∧
    l.Perm ((heapPop l).1 :: (heapPop l).2) ∧
    (∀ x ∈ l, x.Weight ≤ (heapPop l).1.Weight) := by
  unfold heapPop
  dsimp only
  set n := l.length - 1 with hn
  have hnlen : n < l.length := by omega
  set l1 := pqSwap l 0 n with hl1
  have hl1len : l1.length = l.length := pqSwap_length l 0 n
  set l2 := down l1 0 n with hl2
  have hl2len : l2.length = l.length := by rw [hl2, down_length, hl1len]
  have hD1 : ∀ k, 0 < k → k < n → (k - 1) / 2 ≠ 0 →
      (pqGet l1 k).Weight ≤ (pqGet l1 ((k - 1) / 2)).Weight := by
    intro k hk0 hkn hp0
    rw [hl1, pqGet_swap l 0 n k (by omega) hnlen,
      pqGet_swap l 0 n ((k - 1) / 2) (by omega) hnlen]
    rw [if_neg (by omega), if_neg (by omega), if_neg (by omega),
      if_neg (by omega)]
    exact hheap k hk0 (by omega)
  have hD2 : ∀ k, 0 < k → k < n → (k - 1) / 2 = 0 → (0 : Nat) < 0 →
      (pqGet l1 k).Weight ≤ (pqGet l1 ((0 - 1) / 2)).Weight := by
    intro k _ _ _ hcon
    omega
  have hheap2 : IsHeapN l2 n := by
    rw [hl2]
    exact down_heapN l1 0 n (by omega) hD1 hD2
  have hitem : pqGet l2 n = pqGet l 0 := by
    rw [hl2]
    by_cases hn0 : n = 0
    · -- singleton list: the initial swap is the identity
      have hswap : l1 = l := by
        rw [hl1, hn0]
        show pqSet (pqSet l 0 (pqGet l 0)) 0 (pqGet l 0) = l
        rw [pqSet_get_self, pqSet_get_self]
      rw [hn0, hswap, down, if_pos (by omega)]
    · rw [down_get_ge l1 0 n (by omega) (by omega) n le_rfl, hl1,
        pqGet_swap l 0 n n (by omega) hnlen, if_pos rfl]
  have htake : ∀ k, k < n → pqGet (l2.take n) k = pqGet l2 k :=
    fun k hk => pqGet_take l2 n k hk
  have hl2eq : l2 = l2.take n ++ [pqGet l2 n] :=
    list_take_append_last l2 n (by omega)
  have hperm2 : l2.Perm l := by
    rw [hl2]
    exact (down_perm l1 0 n (by omega)).trans (pqSwap_perm l 0 n (by omega) hnlen)
  refine ⟨?_, ?_, ?_, ?_⟩
  · show (l2.take n).length = l.length - 1
    rw [List.length_take]
    omega
  · -- the remainder is a heap
    show IsHeap (l2.take n)
    intro k hk0 hkn
    rw [List.length_take] at hkn
    have hkn' : k < n := by omega
    rw [htake k hkn', htake ((k - 1) / 2) (by omega)]
    exact hheap2 k hk0 hkn'
  · -- permutation: l ~ item :: remainder
    show l.Perm (pqGet l2 n :: l2.take n)
    have h1 : l.Perm (l2.take n ++ [pqGet l2 n]) := by
      rw [← hl2eq]
      exact hperm2.symm
    exact h1.trans (List.perm_append_singleton _ _)
  · -- maximality of the returned item
    intro x hx
    show x.Weight ≤ (pqGet l2 n).Weight
    rw [hitem]
    obtain ⟨k, hk, rfl⟩ := (mem_iff_pqGet l x).mp hx
    exact isHeapN_root_max l l.length hheap k hk

end scraper

namespace scraper

/-- Draining a heap-invariant queue yields its contents in non-increasing
weight order. -/
theorem qPopAllGo_spec : ∀ (fuel : Nat) (q : Queue), q.pq.length ≤ fuel →
    IsHeap q.pq →
    (qPopAllGo fuel q).Perm q.pq ∧
    List.Pairwise (fun a b : QueueItem => b.Weight ≤ a.Weight)
      (qPopAllGo fuel q) := by
  intro fuel
  induction fuel with
  | zero =>
    intro q hlen _
    have hnil : q.pq = [] := List.length_eq_zero.mp (by omega)
    constructor
    · rw [hnil]
      exact List.Perm.refl _
    · exact List.Pairwise.nil
  | succ fuel ih =>
    intro q hlen hheap
    by_cases hemp : q.pq.length = 0
    · have hnil : q.pq = [] := List.length_eq_zero.mp hemp
      have hpop : q.Pop = (q, none) := by
        unfold Queue.Pop
        rw [if_pos hemp]
      have hgo : qPopAllGo (fuel + 1) q = [] := by
        rw [qPopAllGo, hpop]
      rw [hgo, hnil]
      exact ⟨List.Perm.refl _, List.Pairwise.nil⟩
    · have hpos : 0 < q.pq.length := by omega
      have hspec := heapPop_spec q.pq hpos hheap
      have hpop : q.Pop =
          ({ q with pq := (heapPop q.pq).2 }, some (heapPop q.pq).1) := by
        unfold Queue.Pop
        rw [if_neg hemp]
      have hgo : qPopAllGo (fuel + 1) q =
          (heapPop q.pq).1 ::
            qPopAllGo fuel { q with pq := (heapPop q.pq).2 } := by
        rw [qPopAllGo, hpop]
      have hih := ih { q with pq := (heapPop q.pq).2 }
        (by simp only []; omega) hspec.2.1
      rw [hgo]
      constructor
      · exact ((hih.1).cons _).trans hspec.2.2.1.symm
      · rw [List.pairwise_cons]
        refine ⟨?_, hih.2⟩
        intro y hy
        have hy2 : y ∈ (heapPop q.pq).2 := (hih.1.mem_iff).mp hy
        have hyl : y ∈ q.pq := by
          have := hspec.2.2.1.symm
          exact this.mem_iff.mp (List.mem_cons_of_mem _ hy2)
        exact hspec.2.2.2 y hyl

theorem IsHeap_nil : IsHeap ([] : List QueueItem) := by
  intro j hj0 hjlen
  simp at hjlen

theorem runAdds_isHeap : ∀ (adds : List (String × urlutil.ResourceType))
    (q : Queue), IsHeap q.pq → IsHeap (runAdds q adds).pq := by
  intro adds
  induction adds with
  | nil => exact fun q h => h
  | cons p rest ih =>
    intro q hheap
    obtain ⟨u, rt⟩ := p
    show IsHeap (runAdds (q.Add u rt).1 rest).pq
    apply ih
    unfold Queue.Add
    split
    · exact hheap
    · exact heapPush_isHeap q.pq ⟨u, rt⟩ hheap

/-- When the added URLs are fresh and pairwise distinct, every `Add` is
admitted, and the resulting heap holds exactly the added items. -/
theorem runAdds_pq_perm : ∀ (adds : List (String × urlutil.ResourceType))
    (q : Queue), (∀ p ∈ adds, p.1 ∉ q.seen) → (adds.map Prod.fst).Nodup →
    (runAdds q adds).pq.Perm
      ((adds.map fun p => (⟨p.1, p.2⟩ : QueueItem)) ++ q.pq) := by
  intro adds
  induction adds with
  | nil => exact fun q _ _ => List.Perm.refl _
  | cons p rest ih =>
    intro q hfresh hnodup
    obtain ⟨u, rt⟩ := p
    have hu : u ∉ q.seen := hfresh (u, rt) (List.mem_cons_self _ _)
    have hadd := Add_of_not_seen q u rt hu
    show (runAdds (q.Add u rt).1 rest).pq.Perm _
    rw [hadd]
    have hnodup2 : (u :: rest.map Prod.fst).Nodup := by
      simpa only [List.map_cons] using hnodup
    have hnodup' := (List.nodup_cons.mp hnodup2).2
    have hunotin : u ∉ rest.map Prod.fst := (List.nodup_cons.mp hnodup2).1
    have hfresh' : ∀ p ∈ rest, p.1 ∉
        ({ pq := heapPush q.pq ⟨u, rt⟩, seen := u :: q.seen } : Queue).seen := by
      intro p hp hmem
      rcases List.mem_cons.mp hmem with he | he
      · exact hunotin (he ▸ List.mem_map.mpr ⟨p, hp, rfl⟩)
      · exact hfresh p (List.mem_cons_of_mem _ hp) he
    have hih := ih _ hfresh' hnodup'
    have hpush : (heapPush q.pq ⟨u, rt⟩).Perm (⟨u, rt⟩ :: q.pq) :=
      heapPush_perm q.pq ⟨u, rt⟩
    have h1 : (runAdds { pq := heapPush q.pq ⟨u, rt⟩, seen := u :: q.seen }
        rest).pq.Perm
        ((rest.map fun p => (⟨p.1, p.2⟩ : QueueItem)) ++ (⟨u, rt⟩ :: q.pq)) :=
      hih.trans (List.Perm.append_left _ hpush)
    exact h1.trans List.perm_middle

/-- C8: The frontier pops in priority order.  After any sequence of `Add`
calls on a fresh queue, draining the queue by repeated `Pop` yields exactly
the enqueued items (a permutation of the backing heap) in non-increasing
weight order; with pairwise-distinct URLs the heap holds exactly the added
items, and with pairwise-distinct weights the pop order is strictly
descending; `Pop` on an empty queue returns `(nil, false)`. -/
theorem C8_frontier_pop_order (adds : List (String × urlutil.ResourceType))
    (q : Queue) :
    (qPopAll (runAdds NewQueue adds)).Perm (runAdds NewQueue adds).pq ∧
    List.Pairwise (fun a b : QueueItem => b.Weight ≤ a.Weight)
      (qPopAll (runAdds NewQueue adds)) ∧
    ((adds.map Prod.fst).Nodup →
      (runAdds NewQueue adds).pq.Perm
        (adds.map fun p => (⟨p.1, p.2⟩ : QueueItem))) ∧
    ((adds.map Prod.fst).Nodup →
      (adds.map fun p => p.2.GetWeight).Nodup →
      List.Pairwise (fun a b : QueueItem => b.Weight < a.Weight)
        (qPopAll (runAdds NewQueue adds))) ∧
    (q.pq = [] → q.Pop = (q, none)) := by
  have hheap : IsHeap (runAdds NewQueue adds).pq :=
    runAdds_isHeap adds NewQueue IsHeap_nil
  have hmain := qPopAllGo_spec (runAdds NewQueue adds).pq.length
    (runAdds NewQueue adds) le_rfl hheap
  have hperm : (qPopAll (runAdds NewQueue adds)).Perm
      (runAdds NewQueue adds).pq := hmain.1
  have hsorted := hmain.2
  have hcontents : (adds.map Prod.fst).Nodup →
      (runAdds NewQueue adds).pq.Perm
        (adds.map fun p => (⟨p.1, p.2⟩ : QueueItem)) := by
    intro hnodup
    have := runAdds_pq_perm adds NewQueue (by simp [NewQueue]) hnodup
    simpa [NewQueue] using this
  refine ⟨hperm, hsorted, hcontents, ?_, ?_⟩
  · intro hnodup hwts
    have hp1 : (qPopAll (runAdds NewQueue adds)).Perm
        (adds.map fun p => (⟨p.1, p.2⟩ : QueueItem)) :=
      hperm.trans (hcontents hnodup)
    have hwmap : ((adds.map fun p => (⟨p.1, p.2⟩ : QueueItem)).map
        QueueItem.Weight) = adds.map fun p => p.2.GetWeight := by
      rw [List.map_map]
      rfl
    have hwnodup : ((qPopAll (runAdds NewQueue adds)).map
        QueueItem.Weight).Nodup := by
      have := (hp1.map QueueItem.Weight).nodup_iff
      rw [hwmap] at this
      exact this.mpr hwts
    have hne : List.Pairwise
        (fun a b : QueueItem => a.Weight ≠ b.Weight)
        (qPopAll (runAdds NewQueue adds)) := List.pairwise_map.mp hwnodup
    exact (hsorted.and hne).imp fun h => lt_of_le_of_ne h.1 (Ne.symm h.2)
  · intro h
    unfold Queue.Pop
    rw [if_pos (by rw [h]; rfl)]

end scraper

namespace scraper

/-- C8 witness: items with the distinct weights 10, 25, 50, 75, 100
(Other, Image, JS, CSS, HTML) inserted in an arbitrary order pop in strictly
descending weight order, and `Pop` on the empty queue reports no item. -/
theorem C8_frontier_pop_order_witness :
    List.Pairwise (fun a b : QueueItem => b.Weight < a.Weight)
      (qPopAll (runAdds NewQueue
        [("other", .other), ("image", .image), ("js", .js),
         ("css", .css), ("html", .html)])) ∧
    NewQueue.Pop = (NewQueue, none) := by
  have h := C8_frontier_pop_order
    [("other", .other), ("image", .image), ("js", .js),
     ("css", .css), ("html", .html)] NewQueue
  exact ⟨h.2.2.2.1 (by decide) (by decide), h.2.2.2.2 rfl⟩

end scraper

namespace urlutil

/-! ## List utilities for the URL model -/

theorem cutAt_eq_none (sep : Char) (s : List Char) (h : sep ∉ s) :
    cutAt sep s = none := by
  induction s with
  | nil => rfl
  | cons c cs ih =>
    have hne : ¬ c = sep := by
      intro he
      exact h (by rw [he]; exact List.mem_cons_self sep cs)
    show (if c = sep then some ([], cs)
      else (cutAt sep cs).map fun p => (c :: p.1, p.2)) = none
    rw [if_neg hne, ih (fun hm => h (List.mem_cons_of_mem c hm))]
    rfl

theorem cutAt_append (sep : Char) (s t : List Char) (h : sep ∉ s) :
    cutAt sep (s ++ sep :: t) = some (s, t) := by
  induction s with
  | nil =>
    show (if sep = sep then some (([] : List Char), t)
      else (cutAt sep t).map fun p => (sep :: p.1, p.2)) = some ([], t)
    rw [if_pos rfl]
  | cons c cs ih =>
    have hne : ¬ c = sep := by
      intro he
      exact h (by rw [he]; exact List.mem_cons_self sep cs)
    show (if c = sep then some (([] : List Char), cs ++ sep :: t)
      else (cutAt sep (cs ++ sep :: t)).map fun p => (c :: p.1, p.2))
      = some (c :: cs, t)
    rw [if_neg hne, ih (fun hm => h (List.mem_cons_of_mem c hm))]
    rfl

theorem cutAt_eq_some (sep : Char) : ∀ (s a b : List Char),
    cutAt sep s = some (a, b) → s = a ++ sep :: b ∧ sep ∉ a := by
  intro s
  induction s with
  | nil =>
    intro a b h
    simp [cutAt] at h
  | cons c cs ih =>
    intro a b h
    have h' : (if c = sep then some (([] : List Char), cs)
        else (cutAt sep cs).map fun p => (c :: p.1, p.2)) = some (a, b) := h
    by_cases hc : c = sep
    · rw [if_pos hc] at h'
      have h1 := Option.some.inj h'
      have ha : ([] : List Char) = a := congrArg Prod.fst h1
      have hb : cs = b := congrArg Prod.snd h1
      refine ⟨?_, ?_⟩
      · rw [← ha, ← hb, hc]
        rfl
      · rw [← ha]
        simp
    · rw [if_neg hc] at h'
      cases hcut : cutAt sep cs with
      | none =>
        rw [hcut] at h'
        simp at h'
      | some p =>
        rw [hcut] at h'
        simp only [Option.map_some'] at h'
        have h1 := Option.some.inj h'
        have ha : c :: p.1 = a := congrArg Prod.fst h1
        have hb : p.2 = b := congrArg Prod.snd h1
        obtain ⟨hcs, hnot⟩ := ih p.1 p.2 (by rw [hcut])
        refine ⟨?_, ?_⟩
        · rw [← ha, ← hb, hcs]
          rfl
        · rw [← ha]
          intro hmem
          rcases List.mem_cons.mp hmem with he | he
          · exact hc he.symm
          · exact hnot he

theorem takeWhile_append_all (p : Char → Bool) (s t : List Char)
    (h : ∀ c ∈ s, p c = true) :
    (s ++ t).takeWhile p = s ++ t.takeWhile p := by
  induction s with
  | nil => rfl
  | cons c cs ih =>
    have hc := h c (List.mem_cons_self c cs)
    simp only [List.cons_append, List.takeWhile_cons, hc, if_true]
    rw [ih (fun x hx => h x (List.mem_cons_of_mem c hx))]

theorem takeWhile_cons_neg (p : Char → Bool) (c : Char) (t : List Char)
    (h : p c = false) : (c :: t).takeWhile p = [] := by
  simp [List.takeWhile_cons, h]

theorem takeWhile_nil_end (p : Char → Bool) (s : List Char)
    (h : ∀ c ∈ s, p c = true) : s.takeWhile p = s := by
  have := takeWhile_append_all p s [] h
  simpa using this

theorem trimSuffix_of_suffix (s suf t : List Char) (h : s = t ++ suf) :
    trimSuffix s suf = t := by
  unfold trimSuffix
  rw [if_pos (by rw [h]; exact List.isSuffixOf_iff_suffix.mpr ⟨t, rfl⟩)]
  rw [h]
  have : (t ++ suf).length - suf.length = t.length := by simp
  rw [this, List.take_left]

theorem trimSuffix_of_not_suffix (s suf : List Char)
    (h : ¬ suf.isSuffixOf s = true) : trimSuffix s suf = s := by
  unfold trimSuffix
  rw [if_neg h]

theorem suffix_mem (s t : List Char) (h : s.isSuffixOf t = true) :
    ∀ c ∈ s, c ∈ t := by
  intro c hc
  have hsuf : s <:+ t := List.isSuffixOf_iff_suffix.mp h
  exact hsuf.subset hc

theorem dropWhile_head_false (p : Char → Bool) :
    ∀ (l : List Char) (c : Char) (t : List Char),
      l.dropWhile p = c :: t → p c = false := by
  intro l
  induction l with
  | nil =>
    intro c t h
    simp at h
  | cons a as ih =>
    intro c t h
    rw [List.dropWhile_cons] at h
    by_cases hp : p a = true
    · rw [if_pos hp] at h
      exact ih c t h
    · rw [if_neg hp] at h
      cases h
      simpa using hp

end urlutil

namespace urlutil

/-! ## Character facts for the URL model -/

theorem char_eq_of_toNat (a b : Char) (h : a.toNat = b.toNat) : a = b :=
  Char.ext (UInt32.ext h)

theorem toNat_lowerChar (c : Char) :
    (lowerChar c).toNat =
      if 65 ≤ c.toNat ∧ c.toNat ≤ 90 then c.toNat + 32 else c.toNat := by
  unfold lowerChar
  by_cases h : ('A' : Char) ≤ c ∧ c ≤ 'Z'
  · rw [if_pos h, if_pos (show 65 ≤ c.toNat ∧ c.toNat ≤ 90 from h)]
    have hv : (c.toNat + 32).isValidChar := by
      have : 65 ≤ c.toNat ∧ c.toNat ≤ 90 := h
      left
      omega
    unfold Char.ofNat Char.ofNatAux
    split
    · rfl
    · contradiction
  · rw [if_neg h, if_neg (show ¬(65 ≤ c.toNat ∧ c.toNat ≤ 90) from h)]

theorem lowerChar_eq_self (c : Char) (h : ¬(65 ≤ c.toNat ∧ c.toNat ≤ 90)) :
    lowerChar c = c := by
  unfold lowerChar
  rw [if_neg (show ¬(('A' : Char) ≤ c ∧ c ≤ 'Z') from h)]

theorem isLowerAlpha_iff (c : Char) :
    isLowerAlpha c = true ↔ 97 ≤ c.toNat ∧ c.toNat ≤ 122 := by
  unfold isLowerAlpha
  rw [decide_eq_true_eq]
  exact Iff.rfl

theorem isAlphaChar_iff (c : Char) :
    isAlphaChar c = true ↔
      (97 ≤ c.toNat ∧ c.toNat ≤ 122) ∨ (65 ≤ c.toNat ∧ c.toNat ≤ 90) := by
  unfold isAlphaChar
  rw [Bool.or_eq_true, decide_eq_true_eq, decide_eq_true_eq]
  exact Iff.rfl

theorem isDigitChar_iff (c : Char) :
    isDigitChar c = true ↔ 48 ≤ c.toNat ∧ c.toNat ≤ 57 := by
  unfold isDigitChar
  rw [decide_eq_true_eq]
  exact Iff.rfl

theorem char_eq_iff_toNat (c d : Char) : c = d ↔ c.toNat = d.toNat :=
  ⟨fun h => h ▸ rfl, char_eq_of_toNat c d⟩

theorem isHostnameChar_iff (c : Char) :
    isHostnameChar c = true ↔
      (97 ≤ c.toNat ∧ c.toNat ≤ 122) ∨ (65 ≤ c.toNat ∧ c.toNat ≤ 90) ∨
      (48 ≤ c.toNat ∧ c.toNat ≤ 57) ∨ c.toNat = 46 ∨ c.toNat = 45 := by
  unfold isHostnameChar
  rw [Bool.or_eq_true, Bool.or_eq_true, Bool.or_eq_true,
    decide_eq_true_eq, decide_eq_true_eq, isAlphaChar_iff, isDigitChar_iff,
    char_eq_iff_toNat, char_eq_iff_toNat]
  have h46 : ('.' : Char).toNat = 46 := rfl
  have h45 : ('-' : Char).toNat = 45 := rfl
  rw [h46, h45]
  tauto

theorem isPathChar_iff (c : Char) :
    isPathChar c = true ↔
      (97 ≤ c.toNat ∧ c.toNat ≤ 122) ∨ (65 ≤ c.toNat ∧ c.toNat ≤ 90) ∨
      (48 ≤ c.toNat ∧ c.toNat ≤ 57) ∨ c.toNat = 46 ∨ c.toNat = 45 ∨
      c.toNat = 95 ∨ c.toNat = 126 ∨ c.toNat = 47 := by
  unfold isPathChar
  rw [Bool.or_eq_true, Bool.or_eq_true, Bool.or_eq_true, Bool.or_eq_true,
    Bool.or_eq_true, Bool.or_eq_true, decide_eq_true_eq, decide_eq_true_eq,
    decide_eq_true_eq, decide_eq_true_eq, decide_eq_true_eq,
    isAlphaChar_iff, isDigitChar_iff, char_eq_iff_toNat, char_eq_iff_toNat,
    char_eq_iff_toNat, char_eq_iff_toNat, char_eq_iff_toNat]
  have h46 : ('.' : Char).toNat = 46 := rfl
  have h45 : ('-' : Char).toNat = 45 := rfl
  have h95 : ('_' : Char).toNat = 95 := rfl
  have h126 : ('~' : Char).toNat = 126 := rfl
  have h47 : ('/' : Char).toNat = 47 := rfl
  rw [h46, h45, h95, h126, h47]
  tauto

theorem isQueryChar_iff (c : Char) :
    isQueryChar c = true ↔
      (97 ≤ c.toNat ∧ c.toNat ≤ 122) ∨ (65 ≤ c.toNat ∧ c.toNat ≤ 90) ∨
      (48 ≤ c.toNat ∧ c.toNat ≤ 57) ∨ c.toNat = 46 ∨ c.toNat = 45 ∨
      c.toNat = 95 ∨ c.toNat = 126 ∨ c.toNat = 61 ∨ c.toNat = 38 := by
  unfold isQueryChar
  rw [Bool.or_eq_true, Bool.or_eq_true, Bool.or_eq_true, Bool.or_eq_true,
    Bool.or_eq_true, Bool.or_eq_true, Bool.or_eq_true, decide_eq_true_eq,
    decide_eq_true_eq, decide_eq_true_eq, decide_eq_true_eq,
    decide_eq_true_eq, decide_eq_true_eq, isAlphaChar_iff, isDigitChar_iff,
    char_eq_iff_toNat, char_eq_iff_toNat, char_eq_iff_toNat,
    char_eq_iff_toNat, char_eq_iff_toNat, char_eq_iff_toNat]
  have h46 : ('.' : Char).toNat = 46 := rfl
  have h45 : ('-' : Char).toNat = 45 := rfl
  have h95 : ('_' : Char).toNat = 95 := rfl
  have h126 : ('~' : Char).toNat = 126 := rfl
  have h61 : ('=' : Char).toNat = 61 := rfl
  have h38 : ('&' : Char).toNat = 38 := rfl
  rw [h46, h45, h95, h126, h61, h38]
  tauto

theorem lowerChar_fix_of_lower (c : Char) (h : isLowerAlpha c = true) :
    lowerChar c = c := by
  rw [isLowerAlpha_iff] at h
  exact lowerChar_eq_self c (by omega)

theorem lowerChar_fix_of_digit (c : Char) (h : isDigitChar c = true) :
    lowerChar c = c := by
  rw [isDigitChar_iff] at h
  exact lowerChar_eq_self c (by omega)

theorem isLowerAlpha_lowerChar (c : Char) (h : isAlphaChar c = true) :
    isLowerAlpha (lowerChar c) = true := by
  rw [isAlphaChar_iff] at h
  rw [isLowerAlpha_iff, toNat_lowerChar]
  split <;> omega

theorem lowerChar_idem (c : Char) : lowerChar (lowerChar c) = lowerChar c := by
  apply lowerChar_eq_self
  rw [toNat_lowerChar]
  split <;> omega

theorem lowerChar_eq_iff (c d : Char) (hd : ¬(97 ≤ d.toNat ∧ d.toNat ≤ 122))
    (hd2 : ¬(65 ≤ d.toNat ∧ d.toNat ≤ 90)) :
    lowerChar c = d ↔ c = d := by
  constructor
  · intro h
    apply char_eq_of_toNat
    have := congrArg Char.toNat h
    rw [toNat_lowerChar] at this
    rcases Classical.em (65 ≤ c.toNat ∧ c.toNat ≤ 90) with hc | hc
    · rw [if_pos hc] at this
      omega
    · rw [if_neg hc] at this
      exact this
  · intro h
    rw [h]
    apply lowerChar_eq_self
    omega

theorem isHostnameChar_lowerChar (c : Char) (h : isHostnameChar c = true) :
    isHostnameChar (lowerChar c) = true := by
  rw [isHostnameChar_iff] at h ⊢
  rw [toNat_lowerChar]
  split <;> omega

end urlutil

namespace urlutil

/-- Every component produced by `parseList` is well formed: nonempty
lowercase scheme, valid host, path-class characters with a leading slash (or
empty), query/fragment character classes, and `ForceQuery` only with an
empty query. -/
theorem parse_sound (s : List Char) (p : URLParts) (h : parseList s = some p) :
    p.scheme ≠ [] ∧ p.scheme.all isLowerAlpha = true ∧
    validHost p.host = true ∧ p.path.all isPathChar = true ∧
    (p.path = [] ∨ ∃ t, p.path = '/' :: t) ∧
    p.rawQuery.all isQueryChar = true ∧ p.fragment.all isFragChar = true ∧
    (p.forceQuery = true → p.rawQuery = []) := by
  unfold parseList at h
  dsimp only at h
  split at h
  · rename_i rest3 heq
    split at h
    · exact absurd h (by simp)
    · rename_i hne
      split at h
      · rename_i hvalid
        have hp := Option.some.inj h
        obtain ⟨hb1, hb2, hb3, hb4⟩ :
            validHost (rest3.takeWhile fun c => !(c = '/')) = true ∧
            (rest3.drop (rest3.takeWhile fun c => !(c = '/')).length).all
              isPathChar = true ∧
            (match cutAt '?'
                (match cutAt '#' s with | none => s | some (b, _) => b) with
              | none => []
              | some (_, qs) => qs).all isQueryChar = true ∧
            (match cutAt '#' s with
              | none => []
              | some (_, f) => f).all isFragChar = true := by
          have hc := hvalid
          rw [Bool.and_eq_true, Bool.and_eq_true, Bool.and_eq_true] at hc
          exact ⟨hc.1.1.1, hc.1.1.2, hc.1.2, hc.2⟩
        subst hp
        refine ⟨?_, ?_, hb1, ?_, ?_, hb3, hb4, ?_⟩
        · -- scheme nonempty
          intro hnil
          simp only [List.isEmpty_eq_true] at hne
          exact hne (List.map_eq_nil_iff.mp hnil)
        · -- scheme lowercase
          rw [List.all_eq_true]
          intro c hc
          obtain ⟨c0, hc0, rfl⟩ := List.mem_map.mp hc
          exact isLowerAlpha_lowerChar c0 (List.mem_takeWhile_imp hc0)
        · exact hb2
        · -- path shape: empty or leading slash
          have hsplit : rest3 = (rest3.takeWhile fun c => !(c = '/')) ++
              (rest3.dropWhile fun c => !(c = '/')) :=
            (List.takeWhile_append_dropWhile _ _).symm
          have hdrop := List.drop_left (rest3.takeWhile fun c => !(c = '/'))
            (rest3.dropWhile fun c => !(c = '/'))
          rw [← hsplit] at hdrop
          rw [hdrop]
          cases hdw : rest3.dropWhile fun c => !(c = '/') with
          | nil => exact Or.inl rfl
          | cons c t =>
            right
            refine ⟨t, ?_⟩
            have hc : (fun c => !(c = '/')) c = false :=
              dropWhile_head_false _ rest3 c t hdw
            have : c = '/' := by simpa using hc
            rw [this]

        · -- force query only with empty query
          cases hqc : cutAt '?'
              (match cutAt '#' s with | none => s | some (b, _) => b) with
          | none => simp
          | some pr =>
            obtain ⟨a, b⟩ := pr
            intro hfq
            simpa using hfq
      · exact absurd h (by simp)
  · exact absurd h (by simp)

end urlutil

namespace urlutil

/-! ## Round trip: parsing a serialized well-formed URL -/

theorem not_mem_of_all_pred (p : Char → Bool) (s : List Char)
    (hall : s.all p = true) (x : Char) (hx : p x = false) : x ∉ s := by
  intro hmem
  have h := List.all_eq_true.mp hall x hmem
  rw [hx] at h
  cases h

theorem lowerList_fix_of_lower (s : List Char)
    (h : s.all isLowerAlpha = true) : lowerList s = s := by
  induction s with
  | nil => rfl
  | cons c cs ih =>
    rw [List.all_cons, Bool.and_eq_true] at h
    show lowerChar c :: lowerList cs = c :: cs
    rw [lowerChar_fix_of_lower c h.1, ih h.2]

theorem validHost_not_mem (hst : List Char) (hv : validHost hst = true)
    (x : Char) (h1 : isHostnameChar x = false) (h2 : isDigitChar x = false)
    (h3 : ¬ x = ':') : x ∉ hst := by
  have hv2 : (match cutAt ':' hst with
      | none => validHostname hst
      | some (hn, port) =>
        validHostname hn && !port.isEmpty && port.all isDigitChar) = true := hv
  cases hcut : cutAt ':' hst with
  | none =>
    rw [hcut] at hv2
    have hv3 : validHostname hst = true := hv2
    unfold validHostname at hv3
    rw [Bool.and_eq_true] at hv3
    exact not_mem_of_all_pred _ _ hv3.2 x h1
  | some pr =>
    obtain ⟨hn, port⟩ := pr
    rw [hcut] at hv2
    have hv3 : (validHostname hn && !port.isEmpty && port.all isDigitChar)
        = true := hv2
    rw [Bool.and_eq_true, Bool.and_eq_true] at hv3
    obtain ⟨hsplit, -⟩ := cutAt_eq_some ':' hst hn port hcut
    have hvn := hv3.1.1
    unfold validHostname at hvn
    rw [Bool.and_eq_true] at hvn
    have hhn : x ∉ hn := not_mem_of_all_pred _ _ hvn.2 x h1
    have hport : x ∉ port := not_mem_of_all_pred _ _ hv3.2 x h2
    rw [hsplit]
    intro hmem
    rcases List.mem_append.mp hmem with hm | hm
    · exact hhn hm
    · rcases List.mem_cons.mp hm with he | hm2
      · exact h3 he
      · exact hport hm2

end urlutil

namespace urlutil

/-- The scheme/host/path phase of `parseList`, given the values of the
fragment and query cuts. -/
theorem parseList_core (s sch hst pth qv frgv : List Char) (fqv : Bool)
    (h1 : sch ≠ []) (h2 : sch.all isLowerAlpha = true)
    (h3 : validHost hst = true) (h4 : pth.all isPathChar = true)
    (h5 : pth = [] ∨ ∃ t, pth = '/' :: t)
    (hq : qv.all isQueryChar = true) (hf : frgv.all isFragChar = true)
    (hfrag : (match cutAt '#' s with
        | none => ([] : List Char) | some (_, f) => f) = frgv)
    (hbq : (match cutAt '?'
          (match cutAt '#' s with | none => s | some (b, _) => b) with
        | none => (match cutAt '#' s with | none => s | some (b, _) => b)
        | some (b, _) => b) = sch ++ [':', '/', '/'] ++ hst ++ pth)
    (hqv : (match cutAt '?'
          (match cutAt '#' s with | none => s | some (b, _) => b) with
        | none => ([] : List Char) | some (_, qs) => qs) = qv)
    (hfqv : (match cutAt '?'
          (match cutAt '#' s with | none => s | some (b, _) => b) with
        | none => false | some (_, qs) => qs.isEmpty) = fqv) :
    parseList s = some ⟨sch, hst, pth, qv, fqv, frgv⟩ := by
  have halpha : ∀ c ∈ sch, isAlphaChar c = true := by
    intro c hc
    have hl := List.all_eq_true.mp h2 c hc
    unfold isAlphaChar
    rw [Bool.or_eq_true]
    exact Or.inl hl
  have hslash : '/' ∉ hst :=
    validHost_not_mem hst h3 '/' (by decide) (by decide) (by decide)
  have hsr : (sch ++ [':', '/', '/'] ++ hst ++ pth).takeWhile isAlphaChar
      = sch := by
    simp only [List.append_assoc, List.cons_append, List.nil_append]
    rw [takeWhile_append_all isAlphaChar sch _ halpha,
      takeWhile_cons_neg isAlphaChar ':' _ (by decide), List.append_nil]
  have hdrop : (sch ++ [':', '/', '/'] ++ hst ++ pth).drop sch.length =
      ':' :: '/' :: '/' :: (hst ++ pth) := by
    simp only [List.append_assoc, List.cons_append, List.nil_append]
    exact List.drop_left sch _
  have hne : ¬ sch.isEmpty = true := by
    intro hh
    exact h1 (List.isEmpty_eq_true.mp hh)
  have htw : (hst ++ pth).takeWhile (fun c => !(c = '/')) = hst := by
    have hall : ∀ c ∈ hst, (fun c => !(c = '/')) c = true := by
      intro c hc
      have hcne : ¬ c = '/' := fun he => hslash (he ▸ hc)
      show (!(decide (c = '/'))) = true
      rw [decide_eq_false hcne]
      rfl
    rcases h5 with h5 | ⟨t, h5⟩
    · subst h5
      rw [List.append_nil]
      exact takeWhile_nil_end _ _ hall
    · subst h5
      rw [takeWhile_append_all _ hst _ hall,
        takeWhile_cons_neg _ '/' t (by decide), List.append_nil]
  have hcond : (validHost hst && pth.all isPathChar && qv.all isQueryChar &&
      frgv.all isFragChar) = true := by
    rw [h3, h4, hq, hf]
    rfl
  unfold parseList
  dsimp only
  rw [hbq, hqv, hfqv, hfrag, hsr, hdrop]
  show (if sch.isEmpty then (none : Option URLParts)
    else
      if validHost ((hst ++ pth).takeWhile fun c => !(c = '/')) &&
          ((hst ++ pth).drop
            ((hst ++ pth).takeWhile fun c => !(c = '/')).length).all
            isPathChar &&
          qv.all isQueryChar && frgv.all isFragChar then
        some ⟨lowerList sch, (hst ++ pth).takeWhile fun c => !(c = '/'),
          (hst ++ pth).drop
            ((hst ++ pth).takeWhile fun c => !(c = '/')).length, qv, fqv, frgv⟩
      else none) = some ⟨sch, hst, pth, qv, fqv, frgv⟩
  rw [if_neg hne, htw, List.drop_left, if_pos hcond,
    lowerList_fix_of_lower sch h2]

end urlutil

namespace urlutil

/-- `u.String()` round trip: re-parsing a serialized well-formed URL
recovers its components exactly. -/
theorem parse_serialize (p : URLParts)
    (h1 : p.scheme ≠ []) (h2 : p.scheme.all isLowerAlpha = true)
    (h3 : validHost p.host = true) (h4 : p.path.all isPathChar = true)
    (h5 : p.path = [] ∨ ∃ t, p.path = '/' :: t)
    (h6 : p.rawQuery.all isQueryChar = true)
    (h7 : p.fragment.all isFragChar = true)
    (h8 : p.forceQuery = true → p.rawQuery = []) :
    parseList (serializeList p) = some p := by
  obtain ⟨sch, hst, pth, q, fq, frg⟩ := p
  dsimp only at h1 h2 h3 h4 h5 h6 h7 h8 ⊢
  have hsQ : '?' ∉ sch := not_mem_of_all_pred _ _ h2 '?' (by decide)
  have hsH : '#' ∉ sch := not_mem_of_all_pred _ _ h2 '#' (by decide)
  have hhQ : '?' ∉ hst :=
    validHost_not_mem hst h3 '?' (by decide) (by decide) (by decide)
  have hhH : '#' ∉ hst :=
    validHost_not_mem hst h3 '#' (by decide) (by decide) (by decide)
  have hpQ : '?' ∉ pth := not_mem_of_all_pred _ _ h4 '?' (by decide)
  have hpH : '#' ∉ pth := not_mem_of_all_pred _ _ h4 '#' (by decide)
  have hqH : '#' ∉ q := not_mem_of_all_pred _ _ h6 '#' (by decide)
  have hAQ : '?' ∉ sch ++ [':', '/', '/'] ++ hst ++ pth := by
    intro hmem
    rcases List.mem_append.mp hmem with hm | hm
    · rcases List.mem_append.mp hm with hm2 | hm2
      · rcases List.mem_append.mp hm2 with hm3 | hm3
        · exact hsQ hm3
        · exact absurd hm3 (by decide)
      · exact hhQ hm2
    · exact hpQ hm
  have hAH : '#' ∉ sch ++ [':', '/', '/'] ++ hst ++ pth := by
    intro hmem
    rcases List.mem_append.mp hmem with hm | hm
    · rcases List.mem_append.mp hm with hm2 | hm2
      · rcases List.mem_append.mp hm2 with hm3 | hm3
        · exact hsH hm3
        · exact absurd hm3 (by decide)
      · exact hhH hm2
    · exact hpH hm
  have hAqH : '#' ∉ (sch ++ [':', '/', '/'] ++ hst ++ pth) ++ '?' :: q := by
    intro hmem
    rcases List.mem_append.mp hmem with hm | hm
    · exact hAH hm
    · rcases List.mem_cons.mp hm with he | hm2
      · exact absurd he (by decide)
      · exact hqH hm2
  cases hQ : (fq || !q.isEmpty) with
  | false =>
    rcases Bool.or_eq_false_iff.mp hQ with ⟨hfq, hq1⟩
    have hq0 : q = [] := List.isEmpty_eq_true.mp (by simpa using hq1)
    subst hfq
    subst hq0
    cases frg with
    | nil =>
      have hSeq : serializeList ⟨sch, hst, pth, [], false, []⟩ =
          sch ++ [':', '/', '/'] ++ hst ++ pth := by
        simp [serializeList]
      rw [hSeq]
      have hfc : cutAt '#' (sch ++ [':', '/', '/'] ++ hst ++ pth) = none :=
        cutAt_eq_none '#' _ hAH
      have hqc : cutAt '?' (sch ++ [':', '/', '/'] ++ hst ++ pth) = none :=
        cutAt_eq_none '?' _ hAQ
      exact parseList_core _ sch hst pth [] [] false h1 h2 h3 h4 h5 h6 h7
        (by simp only [hfc]) (by simp only [hfc, hqc])
        (by simp only [hfc, hqc]) (by simp only [hfc, hqc])
    | cons fc ft =>
      have hSeq : serializeList ⟨sch, hst, pth, [], false, fc :: ft⟩ =
          (sch ++ [':', '/', '/'] ++ hst ++ pth) ++ '#' :: (fc :: ft) := by
        simp [serializeList]
      rw [hSeq]
      have hfc : cutAt '#'
          ((sch ++ [':', '/', '/'] ++ hst ++ pth) ++ '#' :: (fc :: ft)) =
          some (sch ++ [':', '/', '/'] ++ hst ++ pth, fc :: ft) :=
        cutAt_append '#' _ _ hAH
      have hqc : cutAt '?' (sch ++ [':', '/', '/'] ++ hst ++ pth) = none :=
        cutAt_eq_none '?' _ hAQ
      exact parseList_core _ sch hst pth [] (fc :: ft) false h1 h2 h3 h4 h5 h6 h7
        (by simp only [hfc]) (by simp only [hfc, hqc])
        (by simp only [hfc, hqc]) (by simp only [hfc, hqc])
  | true =>
    have hfqeq : q.isEmpty = fq := by
      cases fq with
      | true => rw [h8 rfl]; rfl
      | false => simpa using hQ
    cases frg with
    | nil =>
      have hSeq : serializeList ⟨sch, hst, pth, q, fq, []⟩ =
          (sch ++ [':', '/', '/'] ++ hst ++ pth) ++ '?' :: q := by
        simp [serializeList, hQ]
      rw [hSeq]
      have hfc : cutAt '#' ((sch ++ [':', '/', '/'] ++ hst ++ pth) ++ '?' :: q)
          = none := cutAt_eq_none '#' _ hAqH
      have hqc : cutAt '?' ((sch ++ [':', '/', '/'] ++ hst ++ pth) ++ '?' :: q)
          = some (sch ++ [':', '/', '/'] ++ hst ++ pth, q) :=
        cutAt_append '?' _ _ hAQ
      exact parseList_core _ sch hst pth q [] fq h1 h2 h3 h4 h5 h6 h7
        (by simp only [hfc]) (by simp only [hfc, hqc])
        (by simp only [hfc, hqc]) (by simp only [hfc, hqc, hfqeq])
    | cons fc ft =>
      have hSeq : serializeList ⟨sch, hst, pth, q, fq, fc :: ft⟩ =
          ((sch ++ [':', '/', '/'] ++ hst ++ pth) ++ '?' :: q) ++
            '#' :: (fc :: ft) := by
        simp [serializeList, hQ]
      rw [hSeq]
      have hfc : cutAt '#'
          (((sch ++ [':', '/', '/'] ++ hst ++ pth) ++ '?' :: q) ++
            '#' :: (fc :: ft)) =
          some ((sch ++ [':', '/', '/'] ++ hst ++ pth) ++ '?' :: q, fc :: ft) :=
        cutAt_append '#' _ _ hAqH
      have hqc : cutAt '?' ((sch ++ [':', '/', '/'] ++ hst ++ pth) ++ '?' :: q)
          = some (sch ++ [':', '/', '/'] ++ hst ++ pth, q) :=
        cutAt_append '?' _ _ hAQ
      exact parseList_core _ sch hst pth q (fc :: ft) fq h1 h2 h3 h4 h5 h6 h7
        (by simp only [hfc]) (by simp only [hfc, hqc])
        (by simp only [hfc, hqc]) (by simp only [hfc, hqc, hfqeq])

end urlutil

namespace urlutil

/-! ## Normalization preserves well-formedness -/

theorem cutAt_ne_none_of_mem (sep : Char) (s : List Char) (h : sep ∈ s) :
    cutAt sep s ≠ none := by
  induction s with
  | nil => exact absurd h (List.not_mem_nil sep)
  | cons c cs ih =>
    show (if c = sep then some ([], cs)
      else (cutAt sep cs).map fun p => (c :: p.1, p.2)) ≠ none
    by_cases hc : c = sep
    · rw [if_pos hc]
      simp
    · rw [if_neg hc]
      rcases List.mem_cons.mp h with he | hm
      · exact absurd he.symm hc
      · have hne := ih hm
        cases hcc : cutAt sep cs with
        | none => exact absurd hcc hne
        | some pr => simp [hcc]

theorem lowerChar_eq_colon (c : Char) (h : lowerChar c = ':') : c = ':' := by
  by_cases hc : 65 ≤ c.toNat ∧ c.toNat ≤ 90
  · exfalso
    have ht := toNat_lowerChar c
    rw [h, if_pos hc] at ht
    have h58 : (':' : Char).toNat = 58 := rfl
    rw [h58] at ht
    omega
  · rw [lowerChar_eq_self c hc] at h
    exact h

theorem colon_not_mem_lowerList (s : List Char) (h : ':' ∉ s) :
    ':' ∉ lowerList s := by
  intro hmem
  obtain ⟨c, hc, hce⟩ := List.mem_map.mp hmem
  exact h (lowerChar_eq_colon c hce ▸ hc)

theorem lowerList_fix_of_digit (s : List Char)
    (h : s.all isDigitChar = true) : lowerList s = s := by
  induction s with
  | nil => rfl
  | cons c cs ih =>
    rw [List.all_cons, Bool.and_eq_true] at h
    show lowerChar c :: lowerList cs = c :: cs
    rw [lowerChar_fix_of_digit c h.1, ih h.2]

theorem lowerList_idem (s : List Char) : lowerList (lowerList s) = lowerList s := by
  unfold lowerList
  rw [List.map_map]
  exact List.map_congr_left fun c _ => lowerChar_idem c

theorem validHostname_lowerList (s : List Char) (h : validHostname s = true) :
    validHostname (lowerList s) = true := by
  unfold validHostname at h ⊢
  rw [Bool.and_eq_true] at h ⊢
  constructor
  · cases s with
    | nil => exact absurd h.1 (by decide)
    | cons c cs => rfl
  · rw [List.all_eq_true]
    intro x hx
    obtain ⟨c, hc, hce⟩ := List.mem_map.mp hx
    rw [← hce]
    exact isHostnameChar_lowerChar c (List.all_eq_true.mp h.2 c hc)

theorem validHost_of_validHostname (hn : List Char)
    (h : validHostname hn = true) (hc : ':' ∉ hn) : validHost hn = true := by
  show (match cutAt ':' hn with
    | none => validHostname hn
    | some (a, port) =>
      validHostname a && !port.isEmpty && port.all isDigitChar) = true
  rw [cutAt_eq_none ':' hn hc]
  exact h

theorem validHost_lowerList (h0 : List Char) (hv : validHost h0 = true) :
    validHost (lowerList h0) = true := by
  have hv2 : (match cutAt ':' h0 with
      | none => validHostname h0
      | some (hn, port) =>
        validHostname hn && !port.isEmpty && port.all isDigitChar) = true := hv
  cases hcut : cutAt ':' h0 with
  | none =>
    rw [hcut] at hv2
    have hv3 : validHostname h0 = true := hv2
    have hcol : ':' ∉ h0 := by
      have hall : h0.all isHostnameChar = true := by
        unfold validHostname at hv3
        rw [Bool.and_eq_true] at hv3
        exact hv3.2
      exact not_mem_of_all_pred _ _ hall ':' (by decide)
    exact validHost_of_validHostname _ (validHostname_lowerList h0 hv3)
      (colon_not_mem_lowerList h0 hcol)
  | some pr =>
    obtain ⟨hn, port⟩ := pr
    rw [hcut] at hv2
    have hv3 : (validHostname hn && !port.isEmpty && port.all isDigitChar)
        = true := hv2
    rw [Bool.and_eq_true, Bool.and_eq_true] at hv3
    obtain ⟨hsplit, hncolon⟩ := cutAt_eq_some ':' h0 hn port hcut
    have hdecomp : lowerList h0 = lowerList hn ++ ':' :: port := by
      rw [hsplit]
      show (hn ++ ':' :: port).map lowerChar = lowerList hn ++ ':' :: port
      rw [List.map_append, List.map_cons,
        show lowerChar ':' = ':' from by decide]
      show lowerList hn ++ ':' :: lowerList port = lowerList hn ++ ':' :: port
      rw [lowerList_fix_of_digit port hv3.2]
    have hcut2 : cutAt ':' (lowerList h0) = some (lowerList hn, port) := by
      rw [hdecomp]
      exact cutAt_append ':' _ _ (colon_not_mem_lowerList hn hncolon)
    show (match cutAt ':' (lowerList h0) with
      | none => validHostname (lowerList h0)
      | some (a, port) =>
        validHostname a && !port.isEmpty && port.all isDigitChar) = true
    rw [hcut2]
    show (validHostname (lowerList hn) && !port.isEmpty &&
      port.all isDigitChar) = true
    rw [validHostname_lowerList hn hv3.1.1, hv3.1.2, hv3.2]
    rfl

end urlutil

namespace urlutil

theorem colon_decomp_unique (t d hn port : List Char)
    (heq : t ++ ':' :: d = hn ++ ':' :: port)
    (hd : ':' ∉ d) (hport : ':' ∉ port) : t = hn ∧ d = port := by
  have h1 : cutAt ':' (t ++ ':' :: d).reverse = some (d.reverse, t.reverse) := by
    have hrev : (t ++ ':' :: d).reverse = d.reverse ++ ':' :: t.reverse := by
      simp
    rw [hrev]
    exact cutAt_append ':' _ _ (by simpa using hd)
  have h2 : cutAt ':' (hn ++ ':' :: port).reverse =
      some (port.reverse, hn.reverse) := by
    have hrev : (hn ++ ':' :: port).reverse = port.reverse ++ ':' :: hn.reverse := by
      simp
    rw [hrev]
    exact cutAt_append ':' _ _ (by simpa using hport)
  rw [heq, h2] at h1
  have h3 := Option.some.inj h1
  have hp : port.reverse = d.reverse := congrArg Prod.fst h3
  have ht : hn.reverse = t.reverse := congrArg Prod.snd h3
  constructor
  · have := congrArg List.reverse ht
    simpa using this.symm
  · have := congrArg List.reverse hp
    simpa using this.symm

theorem validHost_strip_port (h0 d : List Char) (hv : validHost h0 = true)
    (hdall : d.all isDigitChar = true)
    (hsuf : (':' :: d).isSuffixOf h0 = true) :
    h0 = trimSuffix h0 (':' :: d) ++ ':' :: d ∧
    validHostname (trimSuffix h0 (':' :: d)) = true ∧
    ':' ∉ trimSuffix h0 (':' :: d) := by
  have hv2 : (match cutAt ':' h0 with
      | none => validHostname h0
      | some (hn, port) =>
        validHostname hn && !port.isEmpty && port.all isDigitChar) = true := hv
  obtain ⟨t, ht⟩ : ∃ t, h0 = t ++ ':' :: d := by
    obtain ⟨t, ht⟩ := List.isSuffixOf_iff_suffix.mp hsuf
    exact ⟨t, ht.symm⟩
  cases hcut : cutAt ':' h0 with
  | none =>
    exfalso
    have hmem : ':' ∈ h0 := by
      rw [ht]
      exact List.mem_append.mpr (Or.inr (List.mem_cons_self ':' d))
    exact cutAt_ne_none_of_mem ':' h0 hmem hcut
  | some pr =>
    obtain ⟨hn, port⟩ := pr
    rw [hcut] at hv2
    have hv3 : (validHostname hn && !port.isEmpty && port.all isDigitChar)
        = true := hv2
    rw [Bool.and_eq_true, Bool.and_eq_true] at hv3
    obtain ⟨hsplit, hncolon⟩ := cutAt_eq_some ':' h0 hn port hcut
    have hpcolon : ':' ∉ port := not_mem_of_all_pred _ _ hv3.2 ':' (by decide)
    have hdcolon : ':' ∉ d := not_mem_of_all_pred _ _ hdall ':' (by decide)
    obtain ⟨htn, hdp⟩ :=
      colon_decomp_unique t d hn port (ht.symm.trans hsplit) hdcolon hpcolon
    have htrim : trimSuffix h0 (':' :: d) = hn := by
      apply trimSuffix_of_suffix
      rw [hsplit, hdp]
    rw [htrim]
    refine ⟨?_, hv3.1.1, hncolon⟩
    rw [hsplit, hdp]

theorem all_take (p : Char → Bool) (s : List Char) (n : Nat)
    (h : s.all p = true) : (s.take n).all p = true := by
  rw [List.all_eq_true] at h ⊢
  intro c hc
  exact h c (List.take_subset n s hc)

theorem all_trimSuffix (p : Char → Bool) (s suf : List Char)
    (h : s.all p = true) : (trimSuffix s suf).all p = true := by
  unfold trimSuffix
  split
  · exact all_take p s _ h
  · exact h

end urlutil

namespace urlutil

theorem lowerList_take_lower (s : List Char) (n : Nat) :
    lowerList ((lowerList s).take n) = (lowerList s).take n := by
  show ((lowerList s).take n).map lowerChar = (lowerList s).take n
  rw [List.map_take]
  show (lowerList (lowerList s)).take n = (lowerList s).take n
  rw [lowerList_idem]

theorem lowerList_trimSuffix_lower (s suf : List Char) :
    lowerList (trimSuffix (lowerList s) suf) = trimSuffix (lowerList s) suf := by
  unfold trimSuffix
  split
  · exact lowerList_take_lower s _
  · exact lowerList_idem s

theorem isSuffixOf_false_of_not_mem (suf s : List Char) (c : Char)
    (hcs : c ∈ suf) (hcn : c ∉ s) : suf.isSuffixOf s = false := by
  cases hs : suf.isSuffixOf s with
  | false => rfl
  | true => exact absurd (suffix_mem suf s hs c hcs) hcn

/-- The components produced by `normalizeParts` on a parsed URL are again
well formed (and trivially satisfy the query-clearing invariants). -/
theorem normalizeParts_wf (p : URLParts)
    (h1 : p.scheme ≠ []) (h2 : p.scheme.all isLowerAlpha = true)
    (h3 : validHost p.host = true) (h4 : p.path.all isPathChar = true)
    (h5 : p.path = [] ∨ ∃ t, p.path = '/' :: t)
    (h7 : p.fragment.all isFragChar = true) :
    (normalizeParts p).scheme ≠ [] ∧
    (normalizeParts p).scheme.all isLowerAlpha = true ∧
    validHost (normalizeParts p).host = true ∧
    (normalizeParts p).path.all isPathChar = true ∧
    ((normalizeParts p).path = [] ∨ ∃ t, (normalizeParts p).path = '/' :: t) ∧
    (normalizeParts p).rawQuery.all isQueryChar = true ∧
    (normalizeParts p).fragment.all isFragChar = true ∧
    ((normalizeParts p).forceQuery = true → (normalizeParts p).rawQuery = []) := by
  have hnps : (normalizeParts p).scheme = lowerList p.scheme := rfl
  have hschfix : lowerList p.scheme = p.scheme := lowerList_fix_of_lower _ h2
  have hnph : (normalizeParts p).host =
      (if decide (lowerList p.scheme = "http".toList) &&
          ":80".toList.isSuffixOf (lowerList p.host) then
        trimSuffix (lowerList p.host) ":80".toList
      else if decide (lowerList p.scheme = "https".toList) &&
          ":443".toList.isSuffixOf (lowerList p.host) then
        trimSuffix (lowerList p.host) ":443".toList
      else lowerList p.host) := rfl
  have hnpp : (normalizeParts p).path =
      (if decide (p.path ≠ "/".toList) && "/".toList.isSuffixOf p.path then
        trimSuffix p.path "/".toList else p.path) := rfl
  have hv0 : validHost (lowerList p.host) = true := validHost_lowerList p.host h3
  refine ⟨?_, ?_, ?_, ?_, ?_, rfl, h7, fun _ => rfl⟩
  · rw [hnps, hschfix]
    exact h1
  · rw [hnps, hschfix]
    exact h2
  · rw [hnph]
    by_cases hc80 : (decide (lowerList p.scheme = "http".toList) &&
        ":80".toList.isSuffixOf (lowerList p.host)) = true
    · rw [if_pos hc80]
      rw [Bool.and_eq_true] at hc80
      obtain ⟨-, hvhn, hcol⟩ := validHost_strip_port (lowerList p.host)
        "80".toList hv0 (by decide) hc80.2
      exact validHost_of_validHostname _ hvhn hcol
    · rw [if_neg hc80]
      by_cases hc443 : (decide (lowerList p.scheme = "https".toList) &&
          ":443".toList.isSuffixOf (lowerList p.host)) = true
      · rw [if_pos hc443]
        rw [Bool.and_eq_true] at hc443
        obtain ⟨-, hvhn, hcol⟩ := validHost_strip_port (lowerList p.host)
          "443".toList hv0 (by decide) hc443.2
        exact validHost_of_validHostname _ hvhn hcol
      · rw [if_neg hc443]
        exact hv0
  · rw [hnpp]
    split
    · exact all_trimSuffix _ _ _ h4
    · exact h4
  · rw [hnpp]
    by_cases hcond : (decide (p.path ≠ "/".toList) &&
        "/".toList.isSuffixOf p.path) = true
    · rw [if_pos hcond]
      rw [Bool.and_eq_true] at hcond
      obtain ⟨t0, ht0⟩ := List.isSuffixOf_iff_suffix.mp hcond.2
      have htr : trimSuffix p.path "/".toList = t0 :=
        trimSuffix_of_suffix _ _ _ ht0.symm
      rw [htr]
      rcases h5 with h5 | ⟨t, h5⟩
      · exfalso
        rw [h5] at ht0
        simp at ht0
      · cases t0 with
        | nil => exact Or.inl rfl
        | cons c cs =>
          right
          refine ⟨cs, ?_⟩
          have hcc : c :: (cs ++ "/".toList) = '/' :: t := by
            rw [← h5, ← ht0]
            rfl
          obtain ⟨hc, -⟩ := List.cons.inj hcc
          rw [hc]
    · rw [if_neg hcond]
      exact h5

end urlutil

namespace urlutil

/-- Normalizing twice changes nothing, provided the once-normalized path has
no removable trailing slash (the path condition is the one `normalizeParts`
itself tests). -/
theorem normalizeParts_fix (p : URLParts) (hv : validHost p.host = true)
    (hpath : (normalizeParts p).path = "/".toList ∨
      "/".toList.isSuffixOf (normalizeParts p).path = false) :
    normalizeParts (normalizeParts p) = normalizeParts p := by
  have hnps : (normalizeParts p).scheme = lowerList p.scheme := rfl
  have hsch : lowerList (normalizeParts p).scheme = (normalizeParts p).scheme := by
    rw [hnps]
    exact lowerList_idem p.scheme
  have hnph : (normalizeParts p).host =
      (if decide (lowerList p.scheme = "http".toList) &&
          ":80".toList.isSuffixOf (lowerList p.host) then
        trimSuffix (lowerList p.host) ":80".toList
      else if decide (lowerList p.scheme = "https".toList) &&
          ":443".toList.isSuffixOf (lowerList p.host) then
        trimSuffix (lowerList p.host) ":443".toList
      else lowerList p.host) := rfl
  have hv0 : validHost (lowerList p.host) = true := validHost_lowerList p.host hv
  have hhost : lowerList (normalizeParts p).host = (normalizeParts p).host ∧
      (decide (lowerList (normalizeParts p).scheme = "http".toList) &&
        ":80".toList.isSuffixOf (lowerList (normalizeParts p).host)) = false ∧
      (decide (lowerList (normalizeParts p).scheme = "https".toList) &&
        ":443".toList.isSuffixOf (lowerList (normalizeParts p).host)) = false := by
    by_cases hc80 : (decide (lowerList p.scheme = "http".toList) &&
        ":80".toList.isSuffixOf (lowerList p.host)) = true
    · have hh : (normalizeParts p).host =
          trimSuffix (lowerList p.host) ":80".toList := by
        rw [hnph, if_pos hc80]
      rw [Bool.and_eq_true] at hc80
      obtain ⟨-, -, hcol⟩ := validHost_strip_port (lowerList p.host)
        "80".toList hv0 (by decide) hc80.2
      have hcol2 : ':' ∉ (normalizeParts p).host := by
        rw [hh]
        exact hcol
      have hlow : lowerList (normalizeParts p).host = (normalizeParts p).host := by
        rw [hh]
        exact lowerList_trimSuffix_lower p.host ":80".toList
      refine ⟨hlow, ?_, ?_⟩
      · rw [hlow, isSuffixOf_false_of_not_mem ":80".toList _ ':'
          (by decide) hcol2, Bool.and_false]
      · rw [hlow, isSuffixOf_false_of_not_mem ":443".toList _ ':'
          (by decide) hcol2, Bool.and_false]
    · by_cases hc443 : (decide (lowerList p.scheme = "https".toList) &&
          ":443".toList.isSuffixOf (lowerList p.host)) = true
      · have hh : (normalizeParts p).host =
            trimSuffix (lowerList p.host) ":443".toList := by
          rw [hnph, if_neg hc80, if_pos hc443]
        rw [Bool.and_eq_true] at hc443
        obtain ⟨-, -, hcol⟩ := validHost_strip_port (lowerList p.host)
          "443".toList hv0 (by decide) hc443.2
        have hcol2 : ':' ∉ (normalizeParts p).host := by
          rw [hh]
          exact hcol
        have hlow : lowerList (normalizeParts p).host =
            (normalizeParts p).host := by
          rw [hh]
          exact lowerList_trimSuffix_lower p.host ":443".toList
        refine ⟨hlow, ?_, ?_⟩
        · rw [hlow, isSuffixOf_false_of_not_mem ":80".toList _ ':'
            (by decide) hcol2, Bool.and_false]
        · rw [hlow, isSuffixOf_false_of_not_mem ":443".toList _ ':'
            (by decide) hcol2, Bool.and_false]
      · have hh : (normalizeParts p).host = lowerList p.host := by
          rw [hnph, if_neg hc80, if_neg hc443]
        have hlow : lowerList (normalizeParts p).host =
            (normalizeParts p).host := by
          rw [hh]
          exact lowerList_idem p.host
        refine ⟨hlow, ?_, ?_⟩
        · rw [hlow, hh, hsch, hnps]
          exact Bool.eq_false_iff.mpr (fun hx => hc80 hx)
        · rw [hlow, hh, hsch, hnps]
          exact Bool.eq_false_iff.mpr (fun hx => hc443 hx)
  have hmain : normalizeParts (normalizeParts p) =
      ⟨lowerList (normalizeParts p).scheme,
       (if decide (lowerList (normalizeParts p).scheme = "http".toList) &&
            ":80".toList.isSuffixOf (lowerList (normalizeParts p).host) then
          trimSuffix (lowerList (normalizeParts p).host) ":80".toList
        else if decide (lowerList (normalizeParts p).scheme = "https".toList) &&
            ":443".toList.isSuffixOf (lowerList (normalizeParts p).host) then
          trimSuffix (lowerList (normalizeParts p).host) ":443".toList
        else lowerList (normalizeParts p).host),
       (if decide ((normalizeParts p).path ≠ "/".toList) &&
            "/".toList.isSuffixOf (normalizeParts p).path then
          trimSuffix (normalizeParts p).path "/".toList
        else (normalizeParts p).path),
       [], false, (normalizeParts p).fragment⟩ := rfl
  have hpcond : (decide ((normalizeParts p).path ≠ "/".toList) &&
      "/".toList.isSuffixOf (normalizeParts p).path) = false := by
    rcases hpath with hp | hp
    · rw [hp]
      rw [show decide (("/".toList : List Char) ≠ "/".toList) = false from
        by decide, Bool.false_and]
    · rw [hp, Bool.and_false]
  rw [hmain, hpcond, if_neg Bool.false_ne_true, hhost.2.1, hhost.2.2,
    if_neg Bool.false_ne_true, if_neg Bool.false_ne_true, hsch, hhost.1]
  rfl

end urlutil

namespace urlutil

/-- C5: `Normalize` re-serializes the normalized components: the query is
cleared entirely, the fragment is kept verbatim, and exactly one trailing
slash is stripped from the path unless the path is exactly `/`; in
particular `Normalize "https://example.com/path?x=1#y"` is
`"https://example.com/path#y"` and `Normalize "https://example.com/"` is
`"https://example.com/"`. -/
theorem C5_normalize_query_fragment_slash (u : String) (p : URLParts)
    (h : parseList u.toList = some p) :
    Normalize u = some (String.mk (serializeList (normalizeParts p))) ∧
    (normalizeParts p).rawQuery = [] ∧
    (normalizeParts p).forceQuery = false ∧
    (normalizeParts p).fragment = p.fragment ∧
    (∀ t, p.path = t ++ ['/'] → p.path ≠ ['/'] →
      (normalizeParts p).path = t) ∧
    (p.path = ['/'] → (normalizeParts p).path = ['/']) ∧
    Normalize "https://example.com/path?x=1#y" =
      some "https://example.com/path#y" ∧
    Normalize "https://example.com/" = some "https://example.com/" := by
  refine ⟨?_, rfl, rfl, rfl, ?_, ?_, by decide, by decide⟩
  · unfold Normalize
    rw [h]
  · intro t ht hne
    have hnpp : (normalizeParts p).path =
        (if decide (p.path ≠ "/".toList) && "/".toList.isSuffixOf p.path then
          trimSuffix p.path "/".toList else p.path) := rfl
    have hsuf : "/".toList.isSuffixOf p.path = true :=
      List.isSuffixOf_iff_suffix.mpr ⟨t, ht.symm⟩
    have hdec : decide (p.path ≠ "/".toList) = true := decide_eq_true hne
    rw [hnpp, if_pos (by rw [hdec, hsuf]; rfl)]
    exact trimSuffix_of_suffix p.path "/".toList t ht
  · intro hp
    have hnpp : (normalizeParts p).path =
        (if decide (p.path ≠ "/".toList) && "/".toList.isSuffixOf p.path then
          trimSuffix p.path "/".toList else p.path) := rfl
    rw [hnpp, hp]
    decide

theorem C5_normalize_query_fragment_slash_witness :
    parseList "https://example.com/path?x=1#y".toList =
      some ⟨"https".toList, "example.com".toList, "/path".toList,
        "x=1".toList, false, "y".toList⟩ ∧
    Normalize "https://example.com/path?x=1#y" =
      some "https://example.com/path#y" :=
  ⟨by decide,
    (C5_normalize_query_fragment_slash "https://example.com/path?x=1#y"
      ⟨"https".toList, "example.com".toList, "/path".toList,
        "x=1".toList, false, "y".toList⟩ (by decide)).2.2.2.2.2.2.1⟩

/-- C4 counterexample: `Normalize` is not idempotent on every valid absolute
URL. The parseable input `https://example.com/a//` normalizes to
`https://example.com/a/` (one trailing slash stripped), and normalizing that
output again gives the different string `https://example.com/a`. -/
theorem C4_normalize_idempotent_counterexample :
    Normalize "https://example.com/a//" = some "https://example.com/a/" ∧
    Normalize "https://example.com/a/" = some "https://example.com/a" ∧
    (some "https://example.com/a/" : Option String) ≠
      some "https://example.com/a" := by
  refine ⟨by decide, by decide, by decide⟩

/-- C4 (amended): for every parseable absolute URL whose once-normalized
path has no removable trailing slash (it is `/` itself or does not end in a
slash), `Normalize` succeeds and its output is a fixed point of
`Normalize`. -/
theorem C4_normalize_idempotent (u : String) (p : URLParts)
    (h : parseList u.toList = some p)
    (hpath : (normalizeParts p).path = "/".toList ∨
      "/".toList.isSuffixOf (normalizeParts p).path = false) :
    ∃ v : String, Normalize u = some v ∧ Normalize v = some v := by
  obtain ⟨h1, h2, h3, h4, h5, h6, h7, h8⟩ := parse_sound u.toList p h
  refine ⟨String.mk (serializeList (normalizeParts p)), ?_, ?_⟩
  · unfold Normalize
    rw [h]
  · unfold Normalize
    have hl : (String.mk (serializeList (normalizeParts p))).toList =
        serializeList (normalizeParts p) := rfl
    rw [hl]
    obtain ⟨g1, g2, g3, g4, g5, g6, g7, g8⟩ :=
      normalizeParts_wf p h1 h2 h3 h4 h5 h7
    rw [parse_serialize (normalizeParts p) g1 g2 g3 g4 g5 g6 g7 g8]
    show some (String.mk (serializeList (normalizeParts (normalizeParts p)))) =
      some (String.mk (serializeList (normalizeParts p)))
    rw [normalizeParts_fix p h3 hpath]

theorem C4_normalize_idempotent_witness :
    parseList "https://example.com/path/".toList =
      some ⟨"https".toList, "example.com".toList, "/path/".toList,
        [], false, []⟩ ∧
    "/".toList.isSuffixOf (normalizeParts ⟨"https".toList,
      "example.com".toList, "/path/".toList, [], false, []⟩).path = false ∧
    ∃ v : String, Normalize "https://example.com/path/" = some v ∧
      Normalize v = some v :=
  ⟨by decide, by decide,
    C4_normalize_idempotent "https://example.com/path/"
      ⟨"https".toList, "example.com".toList, "/path/".toList, [], false, []⟩
      (by decide) (Or.inr (by decide))⟩

end urlutil

namespace urlutil

/-- C6 counterexample: the whitelist is not consulted when the URL's host
equals the root domain. With root `https://docs.example.com/udk/Two/SiteMap.html`
and whitelist `["docs.example.com"]`, the URL
`https://docs.example.com/other/x.html` has its (whitelisted) host equal to
the root domain, yet `IsAllowed` answers `false` because the path is outside
the root directory — contradicting the claimed disjunction, which would make
every URL on a whitelisted root host allowed. -/
theorem C6_scope_counterexample :
    IsAllowed (NewFilter "https://docs.example.com/udk/Two/SiteMap.html"
      ["docs.example.com"]) "https://docs.example.com/other/x.html" =
      some false ∧
    (NewFilter "https://docs.example.com/udk/Two/SiteMap.html"
      ["docs.example.com"]).whitelist.contains
      (lowerList "docs.example.com".toList) = true := by
  refine ⟨by decide, by decide⟩

/-- C6 (amended): for every parseable absolute URL, if the lowercased host
equals the root domain the answer is exactly the root-directory prefix check
(the whitelist is not consulted); only for other hosts is the answer
whitelist membership. The spec's concrete examples hold, and a relative URL
yields an error (`none`). -/
theorem C6_scope (root u : String) (wl : List String) (p : URLParts)
    (h : parseList u.toList = some p) :
    IsAllowed (NewFilter root wl) u =
      some (if lowerList p.host = (NewFilter root wl).rootDomain then
        (NewFilter root wl).rootPath.isPrefixOf p.path
      else (NewFilter root wl).whitelist.contains (lowerList p.host)) ∧
    IsAllowed (NewFilter "https://docs.example.com/udk/Two/SiteMap.html" [])
      "https://docs.example.com/udk/Two/WebHome.html" = some true ∧
    IsAllowed (NewFilter "https://docs.example.com/udk/Two/SiteMap.html" [])
      "https://docs.example.com/udk/Three/x.html" = some false ∧
    IsAllowed (NewFilter "https://docs.example.com/udk/Two/SiteMap.html" [])
      "/relative/path" = none := by
  refine ⟨?_, by decide, by decide, by decide⟩
  unfold IsAllowed
  rw [h]
  dsimp only
  by_cases hd : lowerList p.host = (NewFilter root wl).rootDomain
  · rw [if_pos hd, if_pos hd]
  · rw [if_neg hd, if_neg hd]
    cases hc : (NewFilter root wl).whitelist.contains (lowerList p.host) with
    | true => rw [if_pos rfl]
    | false => rw [if_neg Bool.false_ne_true]

theorem C6_scope_witness :
    parseList "https://docs.example.com/other/x.html".toList =
      some ⟨"https".toList, "docs.example.com".toList,
        "/other/x.html".toList, [], false, []⟩ ∧
    IsAllowed (NewFilter "https://docs.example.com/udk/Two/SiteMap.html"
        ["docs.example.com"]) "https://docs.example.com/other/x.html" =
      some (if lowerList "docs.example.com".toList =
          (NewFilter "https://docs.example.com/udk/Two/SiteMap.html"
            ["docs.example.com"]).rootDomain then
        (NewFilter "https://docs.example.com/udk/Two/SiteMap.html"
          ["docs.example.com"]).rootPath.isPrefixOf "/other/x.html".toList
      else (NewFilter "https://docs.example.com/udk/Two/SiteMap.html"
          ["docs.example.com"]).whitelist.contains
          (lowerList "docs.example.com".toList)) :=
  ⟨by decide,
    (C6_scope "https://docs.example.com/udk/Two/SiteMap.html"
      "https://docs.example.com/other/x.html" ["docs.example.com"]
      ⟨"https".toList, "docs.example.com".toList,
        "/other/x.html".toList, [], false, []⟩ (by decide)).1⟩

/-- C10: an extensionless parseable URL with no content type is classified
as HTML by `urlutil.DetectResourceType` (the classify operation the spec
contracts), while the `fetcher` variant — whose extension switch has no
empty-extension case — yields Unknown on such a URL. -/
theorem C10_extensionless_html (u : String) (p : URLParts)
    (h : parseList u.toList = some p) (hext : pathExt p.path = []) :
    DetectResourceType u "" = ResourceType.html ∧
    fetcher.DetectResourceType "https://example.com/page" "" =
      fetcher.ResourceType.unknown := by
  refine ⟨?_, by decide⟩
  unfold DetectResourceType
  rw [show detectByContentType ("" : String).toList = none from rfl]
  dsimp only
  rw [h]
  dsimp only
  rw [hext]
  decide

theorem C10_extensionless_html_witness :
    parseList "https://example.com/page".toList =
      some ⟨"https".toList, "example.com".toList, "/page".toList,
        [], false, []⟩ ∧
    pathExt "/page".toList = [] ∧
    DetectResourceType "https://example.com/page" "" = ResourceType.html :=
  ⟨by decide, by decide,
    (C10_extensionless_html "https://example.com/page"
      ⟨"https".toList, "example.com".toList, "/page".toList, [], false, []⟩
      (by decide) (by decide)).1⟩

end urlutil
